import Mathlib

/-!
Shallow embedding of the reaction-network gap / dead-end / path-bound analysis
of `wc_analysis/model/fba.py` (class `FbaModelAnalysis`), together with proofs
of the specified properties.

Modelling conventions:
* A species is identified by a natural-number id (`wc_lang.Species` objects
  have a unique identity; the analysis only compares them for identity).
* A reaction carries its identity (`id`), its `reversible` flag, its ordered
  participant list, and the optional flux-bound maximum (`flux_bounds.max`);
  a missing `flux_bounds` object, an unset maximum, or an infinite maximum
  all make the comparison `flux_bounds.max < min_non_finite_ub` fail, so they
  are modelled together as `none`; a finite defined maximum is `some q`.
* Python `set` values become `Finset Nat`; `discard` becomes `Finset.erase`.
* Python membership `rxn in inactive_reactions` compares object identity,
  modelled by comparing the `id` fields (`rxnMem`).
* The `while` loop of `get_rxn_gaps` is modelled with explicit fuel; the fuel
  chosen in `gapRun` is proved sufficient (`gapLoop_run` below), so the fueled
  function agrees with the unbounded Python loop.
-/

namespace WcAnalysis

/-- A stoichiometric participant: species id plus signed coefficient
(negative = reactant, positive = product). -/
structure Participant where
  species : Nat
  coefficient : Int
deriving DecidableEq, Repr

/-- A reaction: identity, reversibility flag, participants, and the optional
finite flux upper bound (`flux_bounds.max`). -/
structure Reaction where
  id : Nat
  reversible : Bool
  participants : List Participant
  flux_bounds : Option ℚ
deriving DecidableEq, Repr

/-- A dFBA submodel: its species (the result of
`submodel.get_children(kind='submodel', __type=wc_lang.Species)`) and its
reaction list. -/
structure Submodel where
  species : List Nat
  reactions : List Reaction
deriving DecidableEq, Repr

/-- Python identity membership `rxn in inactive_reactions`: reaction objects
are compared by identity, i.e. by their `id` field. -/
def rxnMem (rxn : Reaction) (rxns : List Reaction) : Bool :=
  rxns.any (fun r => r.id == rxn.id)

/-- `FbaModelAnalysis.get_dead_end_species` (fba.py lines 100-116):
starting from the full species set on both sides, every active reaction
removes its participants — both sides if reversible, otherwise reactants from
the not-consumed side and products from the not-produced side. -/
def get_dead_end_species (m : Submodel) (inactive_reactions : List Reaction) :
    Finset Nat × Finset Nat :=
  let species := m.species.toFinset
  m.reactions.foldl
    (fun acc rxn =>
      if rxnMem rxn inactive_reactions then acc
      else if rxn.reversible then
        rxn.participants.foldl
          (fun acc part => (acc.1.erase part.species, acc.2.erase part.species)) acc
      else
        rxn.participants.foldl
          (fun acc part =>
            if part.coefficient < 0 then (acc.1.erase part.species, acc.2)
            else if 0 < part.coefficient then (acc.1, acc.2.erase part.species)
            else acc) acc)
    (species, species)

/-- A reaction removes species `s` from the not-consumed set: some participant
references `s` and the reaction is reversible or consumes it. -/
def rxnRemovesNC (rxn : Reaction) (s : Nat) : Prop :=
  ∃ p ∈ rxn.participants, p.species = s ∧ (rxn.reversible = true ∨ p.coefficient < 0)

/-- A reaction removes species `s` from the not-produced set: some participant
references `s` and the reaction is reversible or produces it. -/
def rxnRemovesNP (rxn : Reaction) (s : Nat) : Prop :=
  ∃ p ∈ rxn.participants, p.species = s ∧ (rxn.reversible = true ∨ 0 < p.coefficient)

section DeadEndCharacterization

lemma revFold_mem (parts : List Participant) (acc : Finset Nat × Finset Nat) (s : Nat) :
    (s ∈ (parts.foldl
        (fun acc part => (acc.1.erase part.species, acc.2.erase part.species)) acc).1 ↔
      s ∈ acc.1 ∧ ∀ p ∈ parts, p.species ≠ s) ∧
    (s ∈ (parts.foldl
        (fun acc part => (acc.1.erase part.species, acc.2.erase part.species)) acc).2 ↔
      s ∈ acc.2 ∧ ∀ p ∈ parts, p.species ≠ s) := by
  induction parts generalizing acc with
  | nil => simp
  | cons p rest ih =>
    simp only [List.foldl_cons, List.forall_mem_cons]
    constructor
    · rw [(ih _).1]
      simp only [Finset.mem_erase]
      constructor
      · rintro ⟨⟨hne, hmem⟩, hall⟩
        exact ⟨hmem, fun h => hne h.symm, hall⟩
      · rintro ⟨hmem, hne, hall⟩
        exact ⟨⟨fun h => hne h.symm, hmem⟩, hall⟩
    · rw [(ih _).2]
      simp only [Finset.mem_erase]
      constructor
      · rintro ⟨⟨hne, hmem⟩, hall⟩
        exact ⟨hmem, fun h => hne h.symm, hall⟩
      · rintro ⟨hmem, hne, hall⟩
        exact ⟨⟨fun h => hne h.symm, hmem⟩, hall⟩

lemma irrFold_mem (parts : List Participant) (acc : Finset Nat × Finset Nat) (s : Nat) :
    (s ∈ (parts.foldl
        (fun acc part =>
          if part.coefficient < 0 then (acc.1.erase part.species, acc.2)
          else if 0 < part.coefficient then (acc.1, acc.2.erase part.species)
          else acc) acc).1 ↔
      s ∈ acc.1 ∧ ∀ p ∈ parts, p.coefficient < 0 → p.species ≠ s) ∧
    (s ∈ (parts.foldl
        (fun acc part =>
          if part.coefficient < 0 then (acc.1.erase part.species, acc.2)
          else if 0 < part.coefficient then (acc.1, acc.2.erase part.species)
          else acc) acc).2 ↔
      s ∈ acc.2 ∧ ∀ p ∈ parts, 0 < p.coefficient → p.species ≠ s) := by
  induction parts generalizing acc with
  | nil => simp
  | cons p rest ih =>
    simp only [List.foldl_cons, List.forall_mem_cons]
    by_cases hneg : p.coefficient < 0
    · rw [if_pos hneg]
      constructor
      · rw [(ih _).1]
        simp only [Finset.mem_erase]
        constructor
        · rintro ⟨⟨hne, hmem⟩, hall⟩
          exact ⟨hmem, fun _ h => hne h.symm, hall⟩
        · rintro ⟨hmem, hcond, hall⟩
          exact ⟨⟨fun h => hcond hneg h.symm, hmem⟩, hall⟩
      · rw [(ih _).2]
        constructor
        · rintro ⟨hmem, hall⟩
          exact ⟨hmem, fun hpos => absurd hneg (by omega), hall⟩
        · rintro ⟨hmem, _, hall⟩
          exact ⟨hmem, hall⟩
    · by_cases hpos : 0 < p.coefficient
      · rw [if_neg hneg, if_pos hpos]
        constructor
        · rw [(ih _).1]
          constructor
          · rintro ⟨hmem, hall⟩
            exact ⟨hmem, fun hneg2 => absurd hpos (by omega), hall⟩
          · rintro ⟨hmem, _, hall⟩
            exact ⟨hmem, hall⟩
        · rw [(ih _).2]
          simp only [Finset.mem_erase]
          constructor
          · rintro ⟨⟨hne, hmem⟩, hall⟩
            exact ⟨hmem, fun _ h => hne h.symm, hall⟩
          · rintro ⟨hmem, hcond, hall⟩
            exact ⟨⟨fun h => hcond hpos h.symm, hmem⟩, hall⟩
      · rw [if_neg hneg, if_neg hpos]
        constructor
        · rw [(ih _).1]
          constructor
          · rintro ⟨hmem, hall⟩
            exact ⟨hmem, fun h => absurd h hneg, hall⟩
          · rintro ⟨hmem, _, hall⟩
            exact ⟨hmem, hall⟩
        · rw [(ih _).2]
          constructor
          · rintro ⟨hmem, hall⟩
            exact ⟨hmem, fun h => absurd h hpos, hall⟩
          · rintro ⟨hmem, _, hall⟩
            exact ⟨hmem, hall⟩

/-- The body of the reaction loop in `get_dead_end_species`. -/
def deadStep (inactive : List Reaction) (acc : Finset Nat × Finset Nat) (rxn : Reaction) :
    Finset Nat × Finset Nat :=
  if rxnMem rxn inactive then acc
  else if rxn.reversible then
    rxn.participants.foldl
      (fun acc part => (acc.1.erase part.species, acc.2.erase part.species)) acc
  else
    rxn.participants.foldl
      (fun acc part =>
        if part.coefficient < 0 then (acc.1.erase part.species, acc.2)
        else if 0 < part.coefficient then (acc.1, acc.2.erase part.species)
        else acc) acc

lemma get_dead_end_species_eq_fold (m : Submodel) (I : List Reaction) :
    get_dead_end_species m I =
      m.reactions.foldl (deadStep I) (m.species.toFinset, m.species.toFinset) := by
  rfl

lemma not_removesNC_rev (rxn : Reaction) (s : Nat) (hrev : rxn.reversible = true) :
    ¬ rxnRemovesNC rxn s ↔ ∀ p ∈ rxn.participants, p.species ≠ s := by
  unfold rxnRemovesNC
  simp only [hrev, true_or, and_true, not_exists, not_and, ne_eq]

lemma not_removesNP_rev (rxn : Reaction) (s : Nat) (hrev : rxn.reversible = true) :
    ¬ rxnRemovesNP rxn s ↔ ∀ p ∈ rxn.participants, p.species ≠ s := by
  unfold rxnRemovesNP
  simp only [hrev, true_or, and_true, not_exists, not_and, ne_eq]

lemma not_removesNC_irr (rxn : Reaction) (s : Nat) (hrev : rxn.reversible = false) :
    ¬ rxnRemovesNC rxn s ↔ ∀ p ∈ rxn.participants, p.coefficient < 0 → p.species ≠ s := by
  unfold rxnRemovesNC
  simp only [hrev, Bool.false_eq_true, false_or, not_exists, not_and]
  constructor
  · intro h p hp hneg hs
    exact h p hp hs hneg
  · intro h p hp hs hneg
    exact h p hp hneg hs

lemma not_removesNP_irr (rxn : Reaction) (s : Nat) (hrev : rxn.reversible = false) :
    ¬ rxnRemovesNP rxn s ↔ ∀ p ∈ rxn.participants, 0 < p.coefficient → p.species ≠ s := by
  unfold rxnRemovesNP
  simp only [hrev, Bool.false_eq_true, false_or, not_exists, not_and]
  constructor
  · intro h p hp hpos hs
    exact h p hp hs hpos
  · intro h p hp hs hpos
    exact h p hp hpos hs

lemma deadStep_mem (I : List Reaction) (acc : Finset Nat × Finset Nat) (rxn : Reaction)
    (s : Nat) :
    (s ∈ (deadStep I acc rxn).1 ↔
      s ∈ acc.1 ∧ (rxnMem rxn I = false → ¬ rxnRemovesNC rxn s)) ∧
    (s ∈ (deadStep I acc rxn).2 ↔
      s ∈ acc.2 ∧ (rxnMem rxn I = false → ¬ rxnRemovesNP rxn s)) := by
  unfold deadStep
  by_cases hmem : rxnMem rxn I
  · simp [hmem]
  · rw [Bool.not_eq_true] at hmem
    simp only [hmem, Bool.false_eq_true, if_false, forall_const]
    by_cases hrev : rxn.reversible
    · simp only [hrev, if_pos]
      rw [(revFold_mem _ _ _).1, (revFold_mem _ _ _).2,
        not_removesNC_rev rxn s hrev, not_removesNP_rev rxn s hrev]
      exact ⟨Iff.rfl, Iff.rfl⟩
    · rw [Bool.not_eq_true] at hrev
      simp only [hrev, Bool.false_eq_true, if_false]
      rw [(irrFold_mem _ _ _).1, (irrFold_mem _ _ _).2,
        not_removesNC_irr rxn s hrev, not_removesNP_irr rxn s hrev]
      exact ⟨Iff.rfl, Iff.rfl⟩

lemma deadFold_mem (I : List Reaction) (rxns : List Reaction)
    (acc : Finset Nat × Finset Nat) (s : Nat) :
    (s ∈ (rxns.foldl (deadStep I) acc).1 ↔
      s ∈ acc.1 ∧ ∀ rxn ∈ rxns, rxnMem rxn I = false → ¬ rxnRemovesNC rxn s) ∧
    (s ∈ (rxns.foldl (deadStep I) acc).2 ↔
      s ∈ acc.2 ∧ ∀ rxn ∈ rxns, rxnMem rxn I = false → ¬ rxnRemovesNP rxn s) := by
  induction rxns generalizing acc with
  | nil => simp
  | cons rxn rest ih =>
    simp only [List.foldl_cons, List.mem_cons]
    constructor
    · rw [(ih _).1, (deadStep_mem I acc rxn s).1]
      constructor
      · rintro ⟨⟨h1, h2⟩, h3⟩
        refine ⟨h1, ?_⟩
        rintro q (rfl | hq)
        · exact h2
        · exact h3 q hq
      · rintro ⟨h1, h2⟩
        exact ⟨⟨h1, h2 rxn (Or.inl rfl)⟩, fun q hq => h2 q (Or.inr hq)⟩
    · rw [(ih _).2, (deadStep_mem I acc rxn s).2]
      constructor
      · rintro ⟨⟨h1, h2⟩, h3⟩
        refine ⟨h1, ?_⟩
        rintro q (rfl | hq)
        · exact h2
        · exact h3 q hq
      · rintro ⟨h1, h2⟩
        exact ⟨⟨h1, h2 rxn (Or.inl rfl)⟩, fun q hq => h2 q (Or.inr hq)⟩

/-- Membership characterization of the not-consumed component. -/
lemma mem_dead_fst (m : Submodel) (I : List Reaction) (s : Nat) :
    s ∈ (get_dead_end_species m I).1 ↔
      s ∈ m.species ∧
        ∀ rxn ∈ m.reactions, rxnMem rxn I = false → ¬ rxnRemovesNC rxn s := by
  rw [get_dead_end_species_eq_fold, (deadFold_mem I m.reactions _ s).1, List.mem_toFinset]

/-- Membership characterization of the not-produced component. -/
lemma mem_dead_snd (m : Submodel) (I : List Reaction) (s : Nat) :
    s ∈ (get_dead_end_species m I).2 ↔
      s ∈ m.species ∧
        ∀ rxn ∈ m.reactions, rxnMem rxn I = false → ¬ rxnRemovesNP rxn s := by
  rw [get_dead_end_species_eq_fold, (deadFold_mem I m.reactions _ s).2, List.mem_toFinset]

end DeadEndCharacterization

/-- C1: `get_dead_end_species` returns exactly the pair described by the spec:
both sides start at the submodel's full species set; every reaction not in the
inactive set removes — from both sides if reversible, otherwise its negative
participants from the not-consumed side and its positive participants from the
not-produced side.  Stated extensionally: a species is in the not-consumed
(resp. not-produced) result iff it is a submodel species and no active
reaction removes it from that side. -/
theorem dead_end_species_characterization (m : Submodel) (I : List Reaction) (s : Nat) :
    (s ∈ (get_dead_end_species m I).1 ↔
      s ∈ m.species ∧
        ∀ rxn ∈ m.reactions, rxnMem rxn I = false →
          ¬ ∃ p ∈ rxn.participants, p.species = s ∧
              (rxn.reversible = true ∨ p.coefficient < 0)) ∧
    (s ∈ (get_dead_end_species m I).2 ↔
      s ∈ m.species ∧
        ∀ rxn ∈ m.reactions, rxnMem rxn I = false →
          ¬ ∃ p ∈ rxn.participants, p.species = s ∧
              (rxn.reversible = true ∨ 0 < p.coefficient)) :=
  ⟨mem_dead_fst m I s, mem_dead_snd m I s⟩

/-- The participant test of `get_inactive_rxns`: some participant species lies
in the not-consumed or the not-produced set (`dead` is the pair). -/
def touchesDeadEnd (dead : Finset Nat × Finset Nat) (rxn : Reaction) : Bool :=
  rxn.participants.any
    (fun part => decide (part.species ∈ dead.1) || decide (part.species ∈ dead.2))

/-- `FbaModelAnalysis.get_inactive_rxns` (fba.py lines 118-146): walk the
reactions in submodel order; a reaction joins the inactive list as soon as one
of its participants' species is in either dead-end set (the inner `for`/
`break` is `List.any`). -/
def get_inactive_rxns (m : Submodel) (dead_end_species : Finset Nat × Finset Nat) :
    List Reaction :=
  m.reactions.foldl
    (fun inactive_reactions rxn =>
      if touchesDeadEnd dead_end_species rxn then inactive_reactions ++ [rxn]
      else inactive_reactions)
    []

section InactiveCharacterization

lemma foldl_append_filter {α : Type} (p : α → Bool) (l : List α) (acc : List α) :
    l.foldl (fun acc x => if p x then acc ++ [x] else acc) acc = acc ++ l.filter p := by
  induction l generalizing acc with
  | nil => simp
  | cons x rest ih =>
    simp only [List.foldl_cons, List.filter_cons]
    by_cases hx : p x
    · rw [if_pos hx, if_pos hx, ih, List.append_assoc, List.singleton_append]
    · rw [if_neg hx, if_neg hx, ih]

lemma get_inactive_rxns_eq_filter (m : Submodel) (d : Finset Nat × Finset Nat) :
    get_inactive_rxns m d = m.reactions.filter (touchesDeadEnd d) := by
  unfold get_inactive_rxns
  rw [foldl_append_filter]
  rfl

lemma touchesDeadEnd_iff (d : Finset Nat × Finset Nat) (rxn : Reaction) :
    touchesDeadEnd d rxn = true ↔
      ∃ p ∈ rxn.participants, p.species ∈ d.1 ∨ p.species ∈ d.2 := by
  unfold touchesDeadEnd
  simp [List.any_eq_true]

lemma mem_get_inactive_rxns (m : Submodel) (d : Finset Nat × Finset Nat) (r : Reaction) :
    r ∈ get_inactive_rxns m d ↔
      r ∈ m.reactions ∧ ∃ p ∈ r.participants, p.species ∈ d.1 ∨ p.species ∈ d.2 := by
  rw [get_inactive_rxns_eq_filter, List.mem_filter, touchesDeadEnd_iff]

end InactiveCharacterization

/-- C2: `get_inactive_rxns` returns exactly the reactions with a participant
species in either dead-end set, in submodel reaction order (a sublist of
`m.reactions`), without duplicates when the submodel's reaction list has
none. -/
theorem inactive_rxns_characterization (m : Submodel) (d : Finset Nat × Finset Nat)
    (hnd : m.reactions.Nodup) :
    (∀ r, r ∈ get_inactive_rxns m d ↔
      r ∈ m.reactions ∧ ∃ p ∈ r.participants, p.species ∈ d.1 ∨ p.species ∈ d.2) ∧
    (get_inactive_rxns m d).Sublist m.reactions ∧
    (get_inactive_rxns m d).Nodup := by
  refine ⟨fun r => mem_get_inactive_rxns m d r, ?_, ?_⟩
  · rw [get_inactive_rxns_eq_filter]
    exact List.filter_sublist m.reactions
  · rw [get_inactive_rxns_eq_filter]
    exact hnd.filter _

/-- Witness for `inactive_rxns_characterization` at a concrete two-reaction
submodel whose first reaction touches the dead-end species 1. -/
theorem inactive_rxns_characterization_witness :
    (∀ r, r ∈ get_inactive_rxns
        ⟨[1, 2], [⟨10, false, [⟨1, -1⟩], none⟩, ⟨11, false, [⟨2, 1⟩], none⟩]⟩
        ({1}, ∅) ↔
      r ∈ [⟨10, false, [⟨1, -1⟩], none⟩, ⟨11, false, [⟨2, 1⟩], none⟩] ∧
        ∃ p ∈ r.participants, p.species ∈ ({1} : Finset Nat) ∨ p.species ∈ (∅ : Finset Nat)) ∧
    (get_inactive_rxns
        ⟨[1, 2], [⟨10, false, [⟨1, -1⟩], none⟩, ⟨11, false, [⟨2, 1⟩], none⟩]⟩
        ({1}, ∅)).Sublist
      [⟨10, false, [⟨1, -1⟩], none⟩, ⟨11, false, [⟨2, 1⟩], none⟩] ∧
    (get_inactive_rxns
        ⟨[1, 2], [⟨10, false, [⟨1, -1⟩], none⟩, ⟨11, false, [⟨2, 1⟩], none⟩]⟩
        ({1}, ∅)).Nodup :=
  inactive_rxns_characterization
    ⟨[1, 2], [⟨10, false, [⟨1, -1⟩], none⟩, ⟨11, false, [⟨2, 1⟩], none⟩]⟩
    ({1}, ∅) (by decide)

section OrderIndependence

/-- Two reactions that differ only in the order of their participant lists
(same identity, reversibility and flux bound). -/
def rxnShape (r r2 : Reaction) : Prop :=
  r.id = r2.id ∧ r.reversible = r2.reversible ∧ r.flux_bounds = r2.flux_bounds ∧
    r.participants.Perm r2.participants

lemma rxnShape_rxnMem {r r2 : Reaction} (h : rxnShape r r2) (I : List Reaction) :
    rxnMem r I = rxnMem r2 I := by
  unfold rxnMem
  rw [h.1]

lemma rxnShape_removesNC {r r2 : Reaction} (h : rxnShape r r2) (s : Nat) :
    rxnRemovesNC r s ↔ rxnRemovesNC r2 s := by
  unfold rxnRemovesNC
  rw [h.2.1]
  constructor
  · rintro ⟨p, hp, hps, hcond⟩
    exact ⟨p, h.2.2.2.mem_iff.mp hp, hps, hcond⟩
  · rintro ⟨p, hp, hps, hcond⟩
    exact ⟨p, h.2.2.2.mem_iff.mpr hp, hps, hcond⟩

lemma rxnShape_removesNP {r r2 : Reaction} (h : rxnShape r r2) (s : Nat) :
    rxnRemovesNP r s ↔ rxnRemovesNP r2 s := by
  unfold rxnRemovesNP
  rw [h.2.1]
  constructor
  · rintro ⟨p, hp, hps, hcond⟩
    exact ⟨p, h.2.2.2.mem_iff.mp hp, hps, hcond⟩
  · rintro ⟨p, hp, hps, hcond⟩
    exact ⟨p, h.2.2.2.mem_iff.mpr hp, hps, hcond⟩

lemma forall2_ball_iff {α : Type} {R : α → α → Prop} {Q : α → Prop}
    {l l2 : List α} (h : List.Forall₂ R l l2)
    (hQ : ∀ a b, R a b → (Q a ↔ Q b)) :
    (∀ a ∈ l, Q a) ↔ (∀ b ∈ l2, Q b) := by
  induction h with
  | nil => simp
  | cons hab htail ih =>
    simp only [List.forall_mem_cons]
    rw [hQ _ _ hab, ih]

lemma perm_ball_iff {α : Type} {Q : α → Prop} {l l2 : List α} (h : l.Perm l2) :
    (∀ a ∈ l, Q a) ↔ (∀ b ∈ l2, Q b) := by
  constructor
  · intro hl b hb
    exact hl b (h.mem_iff.mpr hb)
  · intro hl a ha
    exact hl a (h.mem_iff.mp ha)

end OrderIndependence

/-- C9: `get_dead_end_species` is deterministic (a pure function of its
arguments), and its result is unchanged when the submodel's reaction list is
permuted (`m2`) or when the participant list of each reaction is permuted
(`m3`, same reaction identities, reversibility flags and flux bounds). -/
theorem dead_end_species_order_independent (m m2 m3 : Submodel) (I : List Reaction)
    (h2 : m2.species = m.species ∧ m2.reactions.Perm m.reactions)
    (h3 : m3.species = m.species ∧ List.Forall₂ rxnShape m3.reactions m.reactions) :
    get_dead_end_species m I = get_dead_end_species m I ∧
    get_dead_end_species m2 I = get_dead_end_species m I ∧
    get_dead_end_species m3 I = get_dead_end_species m I := by
  refine ⟨rfl, ?_, ?_⟩
  · refine Prod.ext_iff.mpr ⟨Finset.ext fun s => ?_, Finset.ext fun s => ?_⟩
    · rw [mem_dead_fst, mem_dead_fst, h2.1,
        perm_ball_iff (Q := fun rxn => rxnMem rxn I = false → ¬ rxnRemovesNC rxn s) h2.2]
    · rw [mem_dead_snd, mem_dead_snd, h2.1,
        perm_ball_iff (Q := fun rxn => rxnMem rxn I = false → ¬ rxnRemovesNP rxn s) h2.2]
  · refine Prod.ext_iff.mpr ⟨Finset.ext fun s => ?_, Finset.ext fun s => ?_⟩
    · rw [mem_dead_fst, mem_dead_fst, h3.1,
        forall2_ball_iff (Q := fun rxn => rxnMem rxn I = false → ¬ rxnRemovesNC rxn s)
          h3.2 ?_]
      intro a b hab
      simp only [rxnShape_rxnMem hab, rxnShape_removesNC hab]
    · rw [mem_dead_snd, mem_dead_snd, h3.1,
        forall2_ball_iff (Q := fun rxn => rxnMem rxn I = false → ¬ rxnRemovesNP rxn s)
          h3.2 ?_]
      intro a b hab
      simp only [rxnShape_rxnMem hab, rxnShape_removesNP hab]

/-- Witness for `dead_end_species_order_independent` at a concrete submodel
with two reactions, its reaction-permuted variant and its
participant-permuted variant. -/
theorem dead_end_species_order_independent_witness :
    get_dead_end_species
        ⟨[1, 2], [⟨10, false, [⟨1, -1⟩, ⟨2, 1⟩], none⟩, ⟨11, true, [⟨2, -1⟩], none⟩]⟩ [] =
      get_dead_end_species
        ⟨[1, 2], [⟨10, false, [⟨1, -1⟩, ⟨2, 1⟩], none⟩, ⟨11, true, [⟨2, -1⟩], none⟩]⟩ [] ∧
    get_dead_end_species
        ⟨[1, 2], [⟨11, true, [⟨2, -1⟩], none⟩, ⟨10, false, [⟨1, -1⟩, ⟨2, 1⟩], none⟩]⟩ [] =
      get_dead_end_species
        ⟨[1, 2], [⟨10, false, [⟨1, -1⟩, ⟨2, 1⟩], none⟩, ⟨11, true, [⟨2, -1⟩], none⟩]⟩ [] ∧
    get_dead_end_species
        ⟨[1, 2], [⟨10, false, [⟨2, 1⟩, ⟨1, -1⟩], none⟩, ⟨11, true, [⟨2, -1⟩], none⟩]⟩ [] =
      get_dead_end_species
        ⟨[1, 2], [⟨10, false, [⟨1, -1⟩, ⟨2, 1⟩], none⟩, ⟨11, true, [⟨2, -1⟩], none⟩]⟩ [] :=
  dead_end_species_order_independent
    ⟨[1, 2], [⟨10, false, [⟨1, -1⟩, ⟨2, 1⟩], none⟩, ⟨11, true, [⟨2, -1⟩], none⟩]⟩
    ⟨[1, 2], [⟨11, true, [⟨2, -1⟩], none⟩, ⟨10, false, [⟨1, -1⟩, ⟨2, 1⟩], none⟩]⟩
    ⟨[1, 2], [⟨10, false, [⟨2, 1⟩, ⟨1, -1⟩], none⟩, ⟨11, true, [⟨2, -1⟩], none⟩]⟩
    []
    ⟨rfl, by decide⟩
    ⟨rfl, List.Forall₂.cons ⟨rfl, rfl, rfl, by decide⟩
      (List.Forall₂.cons ⟨rfl, rfl, rfl, by decide⟩ List.Forall₂.nil)⟩

/-- One execution of the body of the `while` loop of
`FbaModelAnalysis.get_rxn_gaps` (fba.py lines 75-77): recompute the inactive
reactions from the current dead-end pair, then recompute the dead-end pair
from those inactive reactions. -/
def gapBody (m : Submodel) (all_dead_end_species : Finset Nat × Finset Nat) :
    (Finset Nat × Finset Nat) × List Reaction :=
  let inactive_reactions := get_inactive_rxns m all_dead_end_species
  (get_dead_end_species m inactive_reactions, inactive_reactions)

/-- The successive states of the `get_rxn_gaps` loop: the dead-end pair and
inactive-reaction list after `k` executions of the loop body (index 0 is the
state before the loop). -/
def deadSeq (m : Submodel) : Nat → (Finset Nat × Finset Nat) × List Reaction
  | 0 => (get_dead_end_species m [], [])
  | k+1 => gapBody m (deadSeq m k).1

/-- The `while any(delta)` loop of `get_rxn_gaps` (fba.py lines 74-79), with
explicit fuel; the extra `Nat` in the result counts the executed loop bodies.
`any(delta)` on the pair of sets is true iff either set is nonempty. -/
def gapLoop (m : Submodel) :
    Nat → Finset Nat × Finset Nat → Finset Nat × Finset Nat → List Reaction →
      ((Finset Nat × Finset Nat) × List Reaction) × Nat
  | 0, all_dead_end_species, _, inactive_reactions =>
    ((all_dead_end_species, inactive_reactions), 0)
  | fuel+1, all_dead_end_species, delta_dead_end_species, inactive_reactions =>
    if delta_dead_end_species.1 = ∅ ∧ delta_dead_end_species.2 = ∅ then
      ((all_dead_end_species, inactive_reactions), 0)
    else
      let b := gapBody m all_dead_end_species
      let r := gapLoop m fuel b.1
        (b.1.1 \ all_dead_end_species.1, b.1.2 \ all_dead_end_species.2) b.2
      (r.1, r.2 + 1)

/-- `FbaModelAnalysis.get_rxn_gaps` (fba.py lines 71-80) together with the
number of loop-body executions.  The fuel `|species| + 2` is proved
sufficient below (`gapLoop_run` / `deadSeq_ex_stab`), so this equals the
unbounded Python loop. -/
def gapRun (m : Submodel) : ((Finset Nat × Finset Nat) × List Reaction) × Nat :=
  let all_dead_end_species := get_dead_end_species m []
  gapLoop m (m.species.toFinset.card + 2)
    all_dead_end_species all_dead_end_species []

/-- The value returned by `get_rxn_gaps`. -/
def get_rxn_gaps (m : Submodel) : (Finset Nat × Finset Nat) × List Reaction :=
  (gapRun m).1

/-- How many times the body of the `get_rxn_gaps` loop executes. -/
def gap_iterations (m : Submodel) : Nat :=
  (gapRun m).2

section GapLoopLemmas

lemma deadSeq_zero (m : Submodel) : deadSeq m 0 = (get_dead_end_species m [], []) := rfl

lemma deadSeq_succ_fst (m : Submodel) (k : Nat) :
    (deadSeq m (k+1)).1 =
      get_dead_end_species m (get_inactive_rxns m (deadSeq m k).1) := rfl

lemma deadSeq_succ_snd (m : Submodel) (k : Nat) :
    (deadSeq m (k+1)).2 = get_inactive_rxns m (deadSeq m k).1 := rfl

lemma rxnMem_nil (rxn : Reaction) : rxnMem rxn [] = false := rfl

lemma rxnMem_mono {I I2 : List Reaction} (h : ∀ r ∈ I, r ∈ I2) (rxn : Reaction)
    (hm : rxnMem rxn I = true) : rxnMem rxn I2 = true := by
  unfold rxnMem at hm ⊢
  rw [List.any_eq_true] at hm ⊢
  obtain ⟨x, hx, he⟩ := hm
  exact ⟨x, h x hx, he⟩

lemma dead_antitone (m : Submodel) {I I2 : List Reaction}
    (h : ∀ rxn, rxnMem rxn I = true → rxnMem rxn I2 = true) :
    (get_dead_end_species m I).1 ⊆ (get_dead_end_species m I2).1 ∧
    (get_dead_end_species m I).2 ⊆ (get_dead_end_species m I2).2 := by
  constructor <;> intro s hs
  · rw [mem_dead_fst] at hs ⊢
    refine ⟨hs.1, fun rxn hr hnm => hs.2 rxn hr ?_⟩
    cases hq : rxnMem rxn I
    · rfl
    · rw [h rxn hq] at hnm
      cases hnm
  · rw [mem_dead_snd] at hs ⊢
    refine ⟨hs.1, fun rxn hr hnm => hs.2 rxn hr ?_⟩
    cases hq : rxnMem rxn I
    · rfl
    · rw [h rxn hq] at hnm
      cases hnm

lemma inact_mono (m : Submodel) {d d2 : Finset Nat × Finset Nat}
    (h1 : d.1 ⊆ d2.1) (h2 : d.2 ⊆ d2.2) :
    ∀ r ∈ get_inactive_rxns m d, r ∈ get_inactive_rxns m d2 := by
  intro r hr
  rw [mem_get_inactive_rxns] at hr ⊢
  obtain ⟨hm, p, hp, hor⟩ := hr
  exact ⟨hm, p, hp, hor.imp (fun h => h1 h) (fun h => h2 h)⟩

/-- C3 core: successive loop states are monotonically non-decreasing. -/
lemma deadSeq_mono (m : Submodel) (k : Nat) :
    (deadSeq m k).1.1 ⊆ (deadSeq m (k+1)).1.1 ∧
    (deadSeq m k).1.2 ⊆ (deadSeq m (k+1)).1.2 ∧
    ∀ r ∈ (deadSeq m k).2, r ∈ (deadSeq m (k+1)).2 := by
  induction k with
  | zero =>
    have hnil : ∀ rxn, rxnMem rxn ([] : List Reaction) = true →
        rxnMem rxn (get_inactive_rxns m (deadSeq m 0).1) = true := by
      intro rxn h
      rw [rxnMem_nil] at h
      cases h
    have h := dead_antitone m hnil
    refine ⟨?_, ?_, ?_⟩
    · rw [deadSeq_succ_fst]
      exact h.1
    · rw [deadSeq_succ_fst]
      exact h.2
    · intro r hr
      cases hr
  | succ k ih =>
    have hI : ∀ r ∈ (deadSeq m (k+1)).2, r ∈ (deadSeq m (k+2)).2 := by
      rw [deadSeq_succ_snd, deadSeq_succ_snd]
      exact inact_mono m ih.1 ih.2.1
    have hIm : ∀ rxn, rxnMem rxn (deadSeq m (k+1)).2 = true →
        rxnMem rxn (deadSeq m (k+2)).2 = true := fun rxn => rxnMem_mono hI rxn
    have hd := dead_antitone m hIm
    refine ⟨?_, ?_, hI⟩
    · rw [deadSeq_succ_fst, deadSeq_succ_fst, ← deadSeq_succ_snd, ← deadSeq_succ_snd]
      exact hd.1
    · rw [deadSeq_succ_fst, deadSeq_succ_fst, ← deadSeq_succ_snd, ← deadSeq_succ_snd]
      exact hd.2

lemma deadSeq_mono_le (m : Submodel) {j k : Nat} (h : j ≤ k) :
    (deadSeq m j).1.1 ⊆ (deadSeq m k).1.1 ∧ (deadSeq m j).1.2 ⊆ (deadSeq m k).1.2 := by
  induction k with
  | zero =>
    rw [Nat.le_zero.mp h]
    exact ⟨subset_rfl, subset_rfl⟩
  | succ k ih =>
    rcases Nat.lt_or_ge j (k+1) with hlt | hge
    · have hj : j ≤ k := by omega
      exact ⟨(ih hj).1.trans (deadSeq_mono m k).1,
        (ih hj).2.trans (deadSeq_mono m k).2.1⟩
    · have hj : j = k + 1 := by omega
      rw [hj]
      exact ⟨subset_rfl, subset_rfl⟩

lemma deadSeq_stab (m : Submodel) (k : Nat)
    (h : (deadSeq m (k+1)).1 = (deadSeq m k).1) :
    deadSeq m (k+2) = deadSeq m (k+1) := by
  calc deadSeq m (k+2) = gapBody m (deadSeq m (k+1)).1 := rfl
    _ = gapBody m (deadSeq m k).1 := by rw [h]
    _ = deadSeq m (k+1) := rfl

lemma touchesDeadEnd_union {d d2 : Finset Nat × Finset Nat}
    (h : d.1 ∪ d.2 = d2.1 ∪ d2.2) (rxn : Reaction) :
    touchesDeadEnd d rxn = touchesDeadEnd d2 rxn := by
  unfold touchesDeadEnd
  induction rxn.participants with
  | nil => rfl
  | cons p rest ih =>
    simp only [List.any_cons, ih]
    congr 1
    rw [Bool.eq_iff_iff]
    simp only [Bool.or_eq_true, decide_eq_true_eq, ← Finset.mem_union, h]

lemma inact_union_congr (m : Submodel) {d d2 : Finset Nat × Finset Nat}
    (h : d.1 ∪ d.2 = d2.1 ∪ d2.2) :
    get_inactive_rxns m d = get_inactive_rxns m d2 := by
  rw [get_inactive_rxns_eq_filter, get_inactive_rxns_eq_filter]
  exact List.filter_congr fun r _ => touchesDeadEnd_union h r

lemma inact_empty (m : Submodel) :
    get_inactive_rxns m ((∅ : Finset Nat), (∅ : Finset Nat)) = [] := by
  rw [get_inactive_rxns_eq_filter]
  apply List.filter_eq_nil_iff.mpr
  intro r _
  simp [touchesDeadEnd]

/-- The inactive-reaction computation depends only on the union of the two
dead-end sets; hence if the union stops growing the dead-end pair stabilizes. -/
lemma deadSeq_union_stab (m : Submodel) (k : Nat)
    (h : (deadSeq m (k+1)).1.1 ∪ (deadSeq m (k+1)).1.2 =
      (deadSeq m k).1.1 ∪ (deadSeq m k).1.2) :
    (deadSeq m (k+2)).1 = (deadSeq m (k+1)).1 := by
  have hi : get_inactive_rxns m (deadSeq m (k+1)).1 =
      get_inactive_rxns m (deadSeq m k).1 := inact_union_congr m h
  rw [deadSeq_succ_fst, hi, ← deadSeq_succ_fst]

lemma deadSeq_union_growth (m : Submodel) (k : Nat)
    (h2 : (deadSeq m (k+2)).1 ≠ (deadSeq m (k+1)).1) :
    (deadSeq m k).1.1 ∪ (deadSeq m k).1.2 ⊂
      (deadSeq m (k+1)).1.1 ∪ (deadSeq m (k+1)).1.2 := by
  have hsub : (deadSeq m k).1.1 ∪ (deadSeq m k).1.2 ⊆
      (deadSeq m (k+1)).1.1 ∪ (deadSeq m (k+1)).1.2 :=
    Finset.union_subset_union (deadSeq_mono m k).1 (deadSeq_mono m k).2.1
  refine Finset.ssubset_iff_subset_ne.mpr ⟨hsub, fun he => h2 ?_⟩
  exact deadSeq_union_stab m k he.symm

lemma dead_subset_species (m : Submodel) (I : List Reaction) :
    (get_dead_end_species m I).1 ⊆ m.species.toFinset ∧
    (get_dead_end_species m I).2 ⊆ m.species.toFinset := by
  constructor <;> intro s hs
  · rw [mem_dead_fst] at hs
    exact List.mem_toFinset.mpr hs.1
  · rw [mem_dead_snd] at hs
    exact List.mem_toFinset.mpr hs.1

lemma deadSeq_subset_species (m : Submodel) (k : Nat) :
    (deadSeq m k).1.1 ⊆ m.species.toFinset ∧ (deadSeq m k).1.2 ⊆ m.species.toFinset := by
  cases k with
  | zero => exact dead_subset_species m []
  | succ k => exact dead_subset_species m _

lemma union_card_chain (m : Submodel) :
    ∀ n, (∀ k < n, (deadSeq m k).1.1 ∪ (deadSeq m k).1.2 ⊂
        (deadSeq m (k+1)).1.1 ∪ (deadSeq m (k+1)).1.2) →
      ((deadSeq m 0).1.1 ∪ (deadSeq m 0).1.2).card + n ≤
        ((deadSeq m n).1.1 ∪ (deadSeq m n).1.2).card := by
  intro n
  induction n with
  | zero => simp
  | succ n ih =>
    intro h
    have h1 := ih fun k hk => h k (by omega)
    have h2 := Finset.card_lt_card (h n (by omega))
    omega

/-- Within at most `|species|` loop bodies the dead-end pair stabilizes. -/
lemma deadSeq_ex_stab (m : Submodel) :
    ∃ j ≤ m.species.toFinset.card, (deadSeq m (j+1)).1 = (deadSeq m j).1 := by
  by_contra hc
  push_neg at hc
  have hgrow : ∀ k < m.species.toFinset.card,
      (deadSeq m k).1.1 ∪ (deadSeq m k).1.2 ⊂
        (deadSeq m (k+1)).1.1 ∪ (deadSeq m (k+1)).1.2 := by
    intro k hk
    exact deadSeq_union_growth m k (hc (k+1) (by omega))
  have hchain := union_card_chain m m.species.toFinset.card hgrow
  have hub : ((deadSeq m m.species.toFinset.card).1.1 ∪
      (deadSeq m m.species.toFinset.card).1.2).card ≤ m.species.toFinset.card := by
    have hss := deadSeq_subset_species m m.species.toFinset.card
    exact Finset.card_le_card (Finset.union_subset hss.1 hss.2)
  have hu0 : ((deadSeq m 0).1.1 ∪ (deadSeq m 0).1.2).card = 0 := by omega
  have hu0e := Finset.card_eq_zero.mp hu0
  rw [Finset.union_eq_empty] at hu0e
  have hpair : (deadSeq m 0).1 = ((∅ : Finset Nat), (∅ : Finset Nat)) :=
    Prod.ext_iff.mpr ⟨hu0e.1, hu0e.2⟩
  have h01 : (deadSeq m 1).1 = (deadSeq m 0).1 := by
    rw [deadSeq_succ_fst, hpair, inact_empty, ← hpair]
    rfl
  exact hc 0 (by omega) h01

end GapLoopLemmas

section GapLoopRun

lemma gapLoop_exit (m : Submodel) (f : Nat) (all delta : Finset Nat × Finset Nat)
    (inactive : List Reaction) (h : delta.1 = ∅ ∧ delta.2 = ∅) :
    gapLoop m (f+1) all delta inactive = ((all, inactive), 0) := by
  unfold gapLoop
  rw [if_pos h]

lemma gapLoop_step (m : Submodel) (f : Nat) (all delta : Finset Nat × Finset Nat)
    (inactive : List Reaction) (h : ¬(delta.1 = ∅ ∧ delta.2 = ∅)) :
    gapLoop m (f+1) all delta inactive =
      ((gapLoop m f (gapBody m all).1
          ((gapBody m all).1.1 \ all.1, (gapBody m all).1.2 \ all.2) (gapBody m all).2).1,
       (gapLoop m f (gapBody m all).1
          ((gapBody m all).1.1 \ all.1, (gapBody m all).1.2 \ all.2) (gapBody m all).2).2
         + 1) := by
  conv_lhs => unfold gapLoop
  rw [if_neg h]

lemma gapBody_deadSeq (m : Submodel) (k : Nat) :
    gapBody m (deadSeq m k).1 = deadSeq m (k+1) := rfl

/-- If the componentwise difference of consecutive loop states is empty, the
state has stabilized, and one more body execution reproduces it. -/
lemma delta_empty_fix (m : Submodel) (k : Nat)
    (h1 : (deadSeq m (k+1)).1.1 \ (deadSeq m k).1.1 = ∅)
    (h2 : (deadSeq m (k+1)).1.2 \ (deadSeq m k).1.2 = ∅) :
    gapBody m (deadSeq m (k+1)).1 = deadSeq m (k+1) := by
  have hsub1 : (deadSeq m (k+1)).1.1 ⊆ (deadSeq m k).1.1 :=
    Finset.sdiff_eq_empty_iff_subset.mp h1
  have hsub2 : (deadSeq m (k+1)).1.2 ⊆ (deadSeq m k).1.2 :=
    Finset.sdiff_eq_empty_iff_subset.mp h2
  have hpair : (deadSeq m (k+1)).1 = (deadSeq m k).1 :=
    Prod.ext_iff.mpr ⟨subset_antisymm hsub1 (deadSeq_mono m k).1,
      subset_antisymm hsub2 (deadSeq_mono m k).2.1⟩
  rw [hpair]
  exact gapBody_deadSeq m k

/-- Main loop lemma: run from state `k` with enough fuel; the loop exits via
the delta-empty test after `c ≤ j + 1` further bodies, landing on a state
that is a fixed point of the loop body. -/
lemma gapLoop_run (m : Submodel) :
    ∀ (f j k : Nat) (delta : Finset Nat × Finset Nat),
      (deadSeq m (k + j + 1)).1 = (deadSeq m (k + j)).1 →
      j + 2 ≤ f →
      (delta.1 = ∅ ∧ delta.2 = ∅ → gapBody m (deadSeq m k).1 = deadSeq m k) →
      ∃ c ≤ j + 1,
        gapLoop m f (deadSeq m k).1 delta (deadSeq m k).2 = (deadSeq m (k + c), c) ∧
        gapBody m (deadSeq m (k + c)).1 = deadSeq m (k + c) := by
  intro f
  induction f with
  | zero =>
    intro j k delta hs hf hd
    omega
  | succ f ih =>
    intro j k delta hs hf hd
    by_cases hδ : delta.1 = ∅ ∧ delta.2 = ∅
    · refine ⟨0, by omega, ?_, hd hδ⟩
      rw [gapLoop_exit m f _ _ _ hδ]
      rfl
    · rw [gapLoop_step m f _ _ _ hδ, gapBody_deadSeq m k]
      cases j with
      | zero =>
        have hs0 : (deadSeq m (k + 1)).1 = (deadSeq m k).1 := hs
        have hδ1 : (deadSeq m (k+1)).1.1 \ (deadSeq m k).1.1 = ∅ := by
          rw [hs0]
          exact Finset.sdiff_self _
        have hδ2 : (deadSeq m (k+1)).1.2 \ (deadSeq m k).1.2 = ∅ := by
          rw [hs0]
          exact Finset.sdiff_self _
        obtain ⟨f2, rfl⟩ : ∃ f2, f = f2 + 1 := ⟨f - 1, by omega⟩
        rw [gapLoop_exit m f2 _ _ _ ⟨hδ1, hδ2⟩]
        refine ⟨1, by omega, rfl, ?_⟩
        rw [show k + 1 = k + 1 from rfl]
        exact delta_empty_fix m k hδ1 hδ2
      | succ j2 =>
        have hs2 : (deadSeq m (k + 1 + j2 + 1)).1 = (deadSeq m (k + 1 + j2)).1 := by
          have e1 : k + 1 + j2 = k + (j2 + 1) := by omega
          rw [e1]
          exact hs
        have hd2 : ((deadSeq m (k+1)).1.1 \ (deadSeq m k).1.1,
              (deadSeq m (k+1)).1.2 \ (deadSeq m k).1.2).1 = ∅ ∧
            ((deadSeq m (k+1)).1.1 \ (deadSeq m k).1.1,
              (deadSeq m (k+1)).1.2 \ (deadSeq m k).1.2).2 = ∅ →
            gapBody m (deadSeq m (k+1)).1 = deadSeq m (k+1) := by
          intro h
          exact delta_empty_fix m k h.1 h.2
        obtain ⟨c2, hc2, heq, hfix⟩ := ih j2 (k+1)
          ((deadSeq m (k+1)).1.1 \ (deadSeq m k).1.1,
            (deadSeq m (k+1)).1.2 \ (deadSeq m k).1.2) hs2 (by omega) hd2
        refine ⟨c2 + 1, by omega, ?_, ?_⟩
        · rw [heq, show k + (c2 + 1) = k + 1 + c2 from by omega]
        · rw [show k + (c2 + 1) = k + 1 + c2 from by omega]
          exact hfix

/-- The loop result does not depend on the fuel, once the fuel is sufficient:
the Python `while` loop terminates. -/
lemma gapLoop_fuel (m : Submodel) :
    ∀ (f g j k : Nat) (delta : Finset Nat × Finset Nat),
      (deadSeq m (k + j + 1)).1 = (deadSeq m (k + j)).1 →
      j + 2 ≤ f → j + 2 ≤ g →
      gapLoop m f (deadSeq m k).1 delta (deadSeq m k).2 =
        gapLoop m g (deadSeq m k).1 delta (deadSeq m k).2 := by
  intro f
  induction f with
  | zero =>
    intro g j k delta hs hf hg
    omega
  | succ f ih =>
    intro g j k delta hs hf hg
    obtain ⟨g2, rfl⟩ : ∃ g2, g = g2 + 1 := ⟨g - 1, by omega⟩
    by_cases hδ : delta.1 = ∅ ∧ delta.2 = ∅
    · rw [gapLoop_exit m f _ _ _ hδ, gapLoop_exit m g2 _ _ _ hδ]
    · rw [gapLoop_step m f _ _ _ hδ, gapLoop_step m g2 _ _ _ hδ, gapBody_deadSeq m k]
      cases j with
      | zero =>
        have hs0 : (deadSeq m (k + 1)).1 = (deadSeq m k).1 := hs
        have hδ1 : (deadSeq m (k+1)).1.1 \ (deadSeq m k).1.1 = ∅ := by
          rw [hs0]
          exact Finset.sdiff_self _
        have hδ2 : (deadSeq m (k+1)).1.2 \ (deadSeq m k).1.2 = ∅ := by
          rw [hs0]
          exact Finset.sdiff_self _
        obtain ⟨f2, rfl⟩ : ∃ f2, f = f2 + 1 := ⟨f - 1, by omega⟩
        obtain ⟨g3, rfl⟩ : ∃ g3, g2 = g3 + 1 := ⟨g2 - 1, by omega⟩
        rw [gapLoop_exit m f2 _ _ _ ⟨hδ1, hδ2⟩, gapLoop_exit m g3 _ _ _ ⟨hδ1, hδ2⟩]
      | succ j2 =>
        have hs2 : (deadSeq m (k + 1 + j2 + 1)).1 = (deadSeq m (k + 1 + j2)).1 := by
          have e1 : k + 1 + j2 = k + (j2 + 1) := by omega
          rw [e1]
          exact hs
        rw [ih g2 j2 (k+1)
          ((deadSeq m (k+1)).1.1 \ (deadSeq m k).1.1,
            (deadSeq m (k+1)).1.2 \ (deadSeq m k).1.2) hs2 (by omega) (by omega)]

lemma gapRun_def (m : Submodel) :
    gapRun m = gapLoop m (m.species.toFinset.card + 2)
      (deadSeq m 0).1 (get_dead_end_species m []) (deadSeq m 0).2 := rfl

lemma delta_zero_fix (m : Submodel)
    (h : (get_dead_end_species m []).1 = ∅ ∧ (get_dead_end_species m []).2 = ∅) :
    gapBody m (deadSeq m 0).1 = deadSeq m 0 := by
  have hpair : (deadSeq m 0).1 = ((∅ : Finset Nat), (∅ : Finset Nat)) :=
    Prod.ext_iff.mpr h
  unfold gapBody
  rw [hpair, inact_empty]
  exact (deadSeq_zero m).symm

/-- `get_rxn_gaps` lands on a loop state `deadSeq m c` with `c ≤ |species|+1`,
and that state is a fixed point of the loop body. -/
lemma gapRun_spec (m : Submodel) :
    ∃ c ≤ m.species.toFinset.card + 1,
      gapRun m = (deadSeq m c, c) ∧
      gapBody m (deadSeq m c).1 = deadSeq m c := by
  obtain ⟨j, hj, hs⟩ := deadSeq_ex_stab m
  have hs0 : (deadSeq m (0 + j + 1)).1 = (deadSeq m (0 + j)).1 := by
    rw [Nat.zero_add]
    exact hs
  obtain ⟨c, hc, heq, hfix⟩ := gapLoop_run m (m.species.toFinset.card + 2) j 0
    (get_dead_end_species m []) hs0 (by omega) (delta_zero_fix m)
  rw [Nat.zero_add] at heq hfix
  exact ⟨c, by omega, by rw [gapRun_def]; exact heq, hfix⟩

lemma gapRun_eq (m : Submodel) :
    get_rxn_gaps m = deadSeq m (gap_iterations m) := by
  obtain ⟨c, _, heq, _⟩ := gapRun_spec m
  have h2 : gap_iterations m = c := by
    unfold gap_iterations
    rw [heq]
  unfold get_rxn_gaps
  rw [heq, h2]

lemma gapRun_fix (m : Submodel) :
    gapBody m (get_rxn_gaps m).1 = get_rxn_gaps m := by
  obtain ⟨c, _, heq, hfix⟩ := gapRun_spec m
  unfold get_rxn_gaps
  rw [heq]
  exact hfix

lemma gap_iterations_le (m : Submodel) :
    gap_iterations m ≤ m.species.toFinset.card + 1 := by
  obtain ⟨c, hc, heq, _⟩ := gapRun_spec m
  unfold gap_iterations
  rw [heq]
  exact hc

lemma gapRun_degenerate (m : Submodel)
    (h : get_dead_end_species m [] = ((∅ : Finset Nat), (∅ : Finset Nat))) :
    gapRun m = ((((∅ : Finset Nat), (∅ : Finset Nat)), ([] : List Reaction)), 0) := by
  have he : (get_dead_end_species m []).1 = ∅ ∧ (get_dead_end_species m []).2 = ∅ := by
    rw [h]
    exact ⟨rfl, rfl⟩
  calc gapRun m
      = gapLoop m (m.species.toFinset.card + 1 + 1)
          (get_dead_end_species m []) (get_dead_end_species m []) [] := rfl
    _ = ((get_dead_end_species m [], []), 0) :=
        gapLoop_exit m (m.species.toFinset.card + 1) _ _ _ he
    _ = ((((∅ : Finset Nat), (∅ : Finset Nat)), ([] : List Reaction)), 0) := by rw [h]

end GapLoopRun

/-- C3: across the successive iterations of the `get_rxn_gaps` loop (the
state after `k` bodies is `deadSeq m k`, and the returned state is
`deadSeq m (gap_iterations m)`), the not-consumed set, the not-produced set
and the inactive-reaction list are monotonically non-decreasing under set
containment. -/
theorem rxn_gaps_monotone (m : Submodel) (k : Nat) :
    ((deadSeq m k).1.1 ⊆ (deadSeq m (k+1)).1.1 ∧
     (deadSeq m k).1.2 ⊆ (deadSeq m (k+1)).1.2 ∧
     ∀ r ∈ (deadSeq m k).2, r ∈ (deadSeq m (k+1)).2) ∧
    get_rxn_gaps m = deadSeq m (gap_iterations m) :=
  ⟨deadSeq_mono m k, gapRun_eq m⟩

/-- C10: the result of `get_rxn_gaps` is a mutual fixed point of
`get_inactive_rxns` and `get_dead_end_species`; in the degenerate case where
the initial dead-end pair is empty the loop body never executes and the
result is `((∅, ∅), [])`. -/
theorem rxn_gaps_fixed_point (m : Submodel) :
    (get_rxn_gaps m).2 = get_inactive_rxns m (get_rxn_gaps m).1 ∧
    (get_rxn_gaps m).1 = get_dead_end_species m (get_rxn_gaps m).2 ∧
    (get_dead_end_species m [] = ((∅ : Finset Nat), (∅ : Finset Nat)) →
      gap_iterations m = 0 ∧
        get_rxn_gaps m = (((∅ : Finset Nat), (∅ : Finset Nat)), [])) := by
  have hfix := gapRun_fix m
  have hsnd : get_inactive_rxns m (get_rxn_gaps m).1 = (get_rxn_gaps m).2 :=
    congrArg Prod.snd hfix
  have hfst : get_dead_end_species m (get_inactive_rxns m (get_rxn_gaps m).1) =
      (get_rxn_gaps m).1 := congrArg Prod.fst hfix
  refine ⟨hsnd.symm, ?_, ?_⟩
  · rw [← hsnd]
    exact hfst.symm
  · intro h
    have hdeg := gapRun_degenerate m h
    constructor
    · unfold gap_iterations
      rw [hdeg]
    · unfold get_rxn_gaps
      rw [hdeg]

/-- Witness for `rxn_gaps_fixed_point`: the empty submodel triggers the
degenerate case. -/
theorem rxn_gaps_fixed_point_witness :
    gap_iterations ⟨[], []⟩ = 0 ∧
    get_rxn_gaps ⟨[], []⟩ = (((∅ : Finset Nat), (∅ : Finset Nat)), []) :=
  (rxn_gaps_fixed_point ⟨[], []⟩).2.2 (by decide)

/-- C4 counterexample: the submodel with the single species 1 and the single
irreversible reaction that only consumes it runs the `get_rxn_gaps` loop body
twice, exceeding its species count of 1; so the loop does not converge within
`|species|` iterations. -/
theorem rxn_gaps_iteration_bound_counterexample :
    gap_iterations ⟨[1], [⟨10, false, [⟨1, -1⟩], none⟩]⟩ = 2 ∧
    (Submodel.mk [1] [⟨10, false, [⟨1, -1⟩], none⟩]).species.toFinset.card = 1 ∧
    ¬(gap_iterations ⟨[1], [⟨10, false, [⟨1, -1⟩], none⟩]⟩ ≤
        (Submodel.mk [1] [⟨10, false, [⟨1, -1⟩], none⟩]).species.toFinset.card) := by
  refine ⟨by decide, by decide, by decide⟩

/-- C4 (amended): the `get_rxn_gaps` loop terminates — any fuel of at least
`|species| + 2` produces the same run — and it executes at most
`|species| + 1` loop bodies (where `|species|` counts the distinct species of
the submodel).  The bound `|species|` claimed by the spec is exceeded by one
on submodels whose initial dead-end pair stabilizes only after a final
both-sides completion step (see the counterexample). -/
theorem rxn_gaps_terminates_iteration_bound (m : Submodel) (f : Nat)
    (hf : m.species.toFinset.card + 2 ≤ f) :
    gapLoop m f (get_dead_end_species m []) (get_dead_end_species m []) [] = gapRun m ∧
    gap_iterations m ≤ m.species.toFinset.card + 1 := by
  constructor
  · obtain ⟨j, hj, hs⟩ := deadSeq_ex_stab m
    have hs0 : (deadSeq m (0 + j + 1)).1 = (deadSeq m (0 + j)).1 := by
      rw [Nat.zero_add]
      exact hs
    exact gapLoop_fuel m f (m.species.toFinset.card + 2) j 0
      (get_dead_end_species m []) hs0 (by omega) (by omega)
  · exact gap_iterations_le m

/-- Witness for `rxn_gaps_terminates_iteration_bound` at the one-species
submodel with fuel 5. -/
theorem rxn_gaps_terminates_iteration_bound_witness :
    gapLoop ⟨[1], [⟨10, false, [⟨1, -1⟩], none⟩]⟩ 5
        (get_dead_end_species ⟨[1], [⟨10, false, [⟨1, -1⟩], none⟩]⟩ [])
        (get_dead_end_species ⟨[1], [⟨10, false, [⟨1, -1⟩], none⟩]⟩ []) [] =
      gapRun ⟨[1], [⟨10, false, [⟨1, -1⟩], none⟩]⟩ ∧
    gap_iterations ⟨[1], [⟨10, false, [⟨1, -1⟩], none⟩]⟩ ≤
      (Submodel.mk [1] [⟨10, false, [⟨1, -1⟩], none⟩]).species.toFinset.card + 1 :=
  rxn_gaps_terminates_iteration_bound ⟨[1], [⟨10, false, [⟨1, -1⟩], none⟩]⟩ 5 (by decide)

section Ring

/-- Reaction `i` of the `N`-reaction irreversible ring: consumes species `i`,
produces species `(i mod N) + 1`. -/
def ringReaction (N i : Nat) : Reaction :=
  ⟨i, false, [⟨i, -1⟩, ⟨i % N + 1, 1⟩], none⟩

/-- The `N`-reaction irreversible ring submodel over species `1..N`. -/
def ringSubmodel (N : Nat) : Submodel :=
  ⟨List.range' 1 N, (List.range' 1 N).map (ringReaction N)⟩

lemma ring_dead_empty (N : Nat) :
    get_dead_end_species (ringSubmodel N) [] = ((∅ : Finset Nat), (∅ : Finset Nat)) := by
  refine Prod.ext_iff.mpr ⟨?_, ?_⟩
  · rw [Finset.eq_empty_iff_forall_not_mem]
    intro s hs
    rw [mem_dead_fst] at hs
    obtain ⟨hmem, hall⟩ := hs
    have hrxn : ringReaction N s ∈ (ringSubmodel N).reactions :=
      List.mem_map.mpr ⟨s, hmem, rfl⟩
    apply hall (ringReaction N s) hrxn rfl
    exact ⟨⟨s, -1⟩, by simp [ringReaction], rfl, Or.inr (by norm_num)⟩
  · rw [Finset.eq_empty_iff_forall_not_mem]
    intro s hs
    rw [mem_dead_snd] at hs
    obtain ⟨hmem, hall⟩ := hs
    have hrange := List.mem_range'_1.mp hmem
    by_cases h1 : s = 1
    · subst h1
      have hN : 1 ≤ N := by omega
      have hrxn : ringReaction N N ∈ (ringSubmodel N).reactions :=
        List.mem_map.mpr ⟨N, List.mem_range'_1.mpr ⟨hN, by omega⟩, rfl⟩
      apply hall (ringReaction N N) hrxn rfl
      refine ⟨⟨N % N + 1, 1⟩, by simp [ringReaction], ?_, Or.inr (by norm_num)⟩
      simp [Nat.mod_self]
    · have hlt : s - 1 < N := by omega
      have hrxn : ringReaction N (s-1) ∈ (ringSubmodel N).reactions :=
        List.mem_map.mpr ⟨s-1, List.mem_range'_1.mpr ⟨by omega, by omega⟩, rfl⟩
      apply hall (ringReaction N (s-1)) hrxn rfl
      refine ⟨⟨(s-1) % N + 1, 1⟩, by simp [ringReaction], ?_, Or.inr (by norm_num)⟩
      rw [Nat.mod_eq_of_lt hlt]
      show s - 1 + 1 = s
      omega

end Ring

/-- C8: on the `N`-reaction irreversible ring, `get_rxn_gaps` returns empty
not-consumed and not-produced sets and an empty inactive-reaction list (even
the initial dead-end pair is empty, so the loop exits at once). -/
theorem rxn_gaps_ring_no_gap (N : Nat) :
    get_rxn_gaps (ringSubmodel N) = (((∅ : Finset Nat), (∅ : Finset Nat)), []) ∧
    gap_iterations (ringSubmodel N) = 0 := by
  have h := gapRun_degenerate (ringSubmodel N) (ring_dead_empty N)
  constructor
  · unfold get_rxn_gaps
    rw [h]
  · unfold gap_iterations
    rw [h]

/-- A node of the bipartite reaction-network digraph: a species node or a
reaction node. -/
inductive Node where
  | species (s : Nat)
  | reaction (r : Reaction)
deriving DecidableEq, Repr

/-- `networkx.DiGraph.add_edge`: adding an already-present directed edge is a
no-op; a new edge is appended (networkx stores adjacency in insertion
order). -/
def addEdge (g : List (Node × Node)) (e : Node × Node) : List (Node × Node) :=
  if e ∈ g then g else g ++ [e]

/-- The first participant pass of `get_digraph` (fba.py lines 170-177):
reactant species→reaction, product reaction→species. -/
def fwdEdgesFold (rxn : Reaction) (g : List (Node × Node)) : List (Node × Node) :=
  rxn.participants.foldl
    (fun g participant =>
      if participant.coefficient < 0 then
        addEdge g (Node.species participant.species, Node.reaction rxn)
      else if 0 < participant.coefficient then
        addEdge g (Node.reaction rxn, Node.species participant.species)
      else g) g

/-- The second pass for reversible reactions (fba.py lines 178-186): mirror
edges reaction→reactant and product→reaction. -/
def revEdgesFold (rxn : Reaction) (g : List (Node × Node)) : List (Node × Node) :=
  rxn.participants.foldl
    (fun g participant =>
      if participant.coefficient < 0 then
        addEdge g (Node.reaction rxn, Node.species participant.species)
      else if 0 < participant.coefficient then
        addEdge g (Node.species participant.species, Node.reaction rxn)
      else g) g

/-- Per-reaction edge insertion of `get_digraph`. -/
def digraphStep (g : List (Node × Node)) (rxn : Reaction) : List (Node × Node) :=
  if rxn.reversible then revEdgesFold rxn (fwdEdgesFold rxn g) else fwdEdgesFold rxn g

/-- `FbaModelAnalysis.get_digraph` (fba.py lines 148-187), as its edge list
(the isolated species nodes added by `add_node` carry no edge and are not
needed by any claim about edges or paths). -/
def get_digraph (m : Submodel) : List (Node × Node) :=
  m.reactions.foldl digraphStep []

/-- The edges contributed by one reaction. -/
def rxnEdge (rxn : Reaction) (e : Node × Node) : Prop :=
  ∃ p ∈ rxn.participants,
    (p.coefficient < 0 ∧ e = (Node.species p.species, Node.reaction rxn)) ∨
    (0 < p.coefficient ∧ e = (Node.reaction rxn, Node.species p.species)) ∨
    (rxn.reversible = true ∧ p.coefficient < 0 ∧
      e = (Node.reaction rxn, Node.species p.species)) ∨
    (rxn.reversible = true ∧ 0 < p.coefficient ∧
      e = (Node.species p.species, Node.reaction rxn))

section DigraphCharacterization

lemma mem_addEdge (g : List (Node × Node)) (e e2 : Node × Node) :
    e2 ∈ addEdge g e ↔ e2 ∈ g ∨ e2 = e := by
  unfold addEdge
  by_cases h : e ∈ g
  · rw [if_pos h]
    constructor
    · exact Or.inl
    · rintro (h2 | rfl)
      · exact h2
      · exact h
  · rw [if_neg h]
    simp

lemma exists_mem_or {α : Type} {l : List α} {P Q : α → Prop} :
    ((∃ x ∈ l, P x) ∨ (∃ x ∈ l, Q x)) ↔ ∃ x ∈ l, P x ∨ Q x := by
  constructor
  · rintro (⟨x, hx, hp⟩ | ⟨x, hx, hq⟩)
    · exact ⟨x, hx, Or.inl hp⟩
    · exact ⟨x, hx, Or.inr hq⟩
  · rintro ⟨x, hx, hp | hq⟩
    · exact Or.inl ⟨x, hx, hp⟩
    · exact Or.inr ⟨x, hx, hq⟩

lemma fwdEdgesFold_mem (rxn : Reaction) :
    ∀ (parts : List Participant) (g : List (Node × Node)) (e : Node × Node),
      (e ∈ parts.foldl
        (fun g participant =>
          if participant.coefficient < 0 then
            addEdge g (Node.species participant.species, Node.reaction rxn)
          else if 0 < participant.coefficient then
            addEdge g (Node.reaction rxn, Node.species participant.species)
          else g) g ↔
      e ∈ g ∨ ∃ p ∈ parts,
        (p.coefficient < 0 ∧ e = (Node.species p.species, Node.reaction rxn)) ∨
        (0 < p.coefficient ∧ e = (Node.reaction rxn, Node.species p.species))) := by
  intro parts
  induction parts with
  | nil => simp
  | cons p rest ih =>
    intro g e
    simp only [List.foldl_cons, List.exists_mem_cons_iff]
    by_cases hneg : p.coefficient < 0
    · rw [if_pos hneg, ih, mem_addEdge]
      have hnp : ¬ (0 < p.coefficient) := by omega
      constructor
      · rintro ((h | rfl) | hrest)
        · exact Or.inl h
        · exact Or.inr (Or.inl (Or.inl ⟨hneg, rfl⟩))
        · exact Or.inr (Or.inr hrest)
      · rintro (h | (⟨_, rfl⟩ | ⟨hpos, _⟩) | hrest)
        · exact Or.inl (Or.inl h)
        · exact Or.inl (Or.inr rfl)
        · exact absurd hpos hnp
        · exact Or.inr hrest
    · by_cases hpos : 0 < p.coefficient
      · rw [if_neg hneg, if_pos hpos, ih, mem_addEdge]
        constructor
        · rintro ((h | rfl) | hrest)
          · exact Or.inl h
          · exact Or.inr (Or.inl (Or.inr ⟨hpos, rfl⟩))
          · exact Or.inr (Or.inr hrest)
        · rintro (h | (⟨hneg2, _⟩ | ⟨_, rfl⟩) | hrest)
          · exact Or.inl (Or.inl h)
          · exact absurd hneg2 hneg
          · exact Or.inl (Or.inr rfl)
          · exact Or.inr hrest
      · rw [if_neg hneg, if_neg hpos, ih]
        constructor
        · rintro (h | hrest)
          · exact Or.inl h
          · exact Or.inr (Or.inr hrest)
        · rintro (h | (⟨hneg2, _⟩ | ⟨hpos2, _⟩) | hrest)
          · exact Or.inl h
          · exact absurd hneg2 hneg
          · exact absurd hpos2 hpos
          · exact Or.inr hrest

lemma revEdgesFold_mem (rxn : Reaction) :
    ∀ (parts : List Participant) (g : List (Node × Node)) (e : Node × Node),
      (e ∈ parts.foldl
        (fun g participant =>
          if participant.coefficient < 0 then
            addEdge g (Node.reaction rxn, Node.species participant.species)
          else if 0 < participant.coefficient then
            addEdge g (Node.species participant.species, Node.reaction rxn)
          else g) g ↔
      e ∈ g ∨ ∃ p ∈ parts,
        (p.coefficient < 0 ∧ e = (Node.reaction rxn, Node.species p.species)) ∨
        (0 < p.coefficient ∧ e = (Node.species p.species, Node.reaction rxn))) := by
  intro parts
  induction parts with
  | nil => simp
  | cons p rest ih =>
    intro g e
    simp only [List.foldl_cons, List.exists_mem_cons_iff]
    by_cases hneg : p.coefficient < 0
    · rw [if_pos hneg, ih, mem_addEdge]
      have hnp : ¬ (0 < p.coefficient) := by omega
      constructor
      · rintro ((h | rfl) | hrest)
        · exact Or.inl h
        · exact Or.inr (Or.inl (Or.inl ⟨hneg, rfl⟩))
        · exact Or.inr (Or.inr hrest)
      · rintro (h | (⟨_, rfl⟩ | ⟨hpos, _⟩) | hrest)
        · exact Or.inl (Or.inl h)
        · exact Or.inl (Or.inr rfl)
        · exact absurd hpos hnp
        · exact Or.inr hrest
    · by_cases hpos : 0 < p.coefficient
      · rw [if_neg hneg, if_pos hpos, ih, mem_addEdge]
        constructor
        · rintro ((h | rfl) | hrest)
          · exact Or.inl h
          · exact Or.inr (Or.inl (Or.inr ⟨hpos, rfl⟩))
          · exact Or.inr (Or.inr hrest)
        · rintro (h | (⟨hneg2, _⟩ | ⟨_, rfl⟩) | hrest)
          · exact Or.inl (Or.inl h)
          · exact absurd hneg2 hneg
          · exact Or.inl (Or.inr rfl)
          · exact Or.inr hrest
      · rw [if_neg hneg, if_neg hpos, ih]
        constructor
        · rintro (h | hrest)
          · exact Or.inl h
          · exact Or.inr (Or.inr hrest)
        · rintro (h | (⟨hneg2, _⟩ | ⟨hpos2, _⟩) | hrest)
          · exact Or.inl h
          · exact absurd hneg2 hneg
          · exact absurd hpos2 hpos
          · exact Or.inr hrest

lemma digraphStep_mem (g : List (Node × Node)) (rxn : Reaction) (e : Node × Node) :
    e ∈ digraphStep g rxn ↔ e ∈ g ∨ rxnEdge rxn e := by
  unfold digraphStep
  by_cases hrev : rxn.reversible
  · rw [if_pos hrev]
    unfold revEdgesFold fwdEdgesFold
    rw [revEdgesFold_mem rxn _ _ e, fwdEdgesFold_mem rxn _ _ e, or_assoc, exists_mem_or]
    unfold rxnEdge
    simp only [hrev, true_and, or_assoc]
  · rw [Bool.not_eq_true] at hrev
    rw [if_neg (by rw [hrev]; exact Bool.false_ne_true)]
    unfold fwdEdgesFold
    rw [fwdEdgesFold_mem rxn _ _ e]
    unfold rxnEdge
    simp only [hrev, Bool.false_eq_true, false_and, or_false]

lemma digraphFold_mem (rxns : List Reaction) (g : List (Node × Node)) (e : Node × Node) :
    e ∈ rxns.foldl digraphStep g ↔ e ∈ g ∨ ∃ rxn ∈ rxns, rxnEdge rxn e := by
  induction rxns generalizing g with
  | nil => simp
  | cons rxn rest ih =>
    rw [List.foldl_cons, ih, digraphStep_mem, List.exists_mem_cons_iff, or_assoc]

lemma mem_get_digraph (m : Submodel) (e : Node × Node) :
    e ∈ get_digraph m ↔ ∃ rxn ∈ m.reactions, rxnEdge rxn e := by
  unfold get_digraph
  rw [digraphFold_mem]
  simp

lemma addEdge_nodup (g : List (Node × Node)) (e : Node × Node) (h : g.Nodup) :
    (addEdge g e).Nodup := by
  unfold addEdge
  by_cases hm : e ∈ g
  · rw [if_pos hm]
    exact h
  · rw [if_neg hm]
    rw [List.nodup_append]
    refine ⟨h, List.nodup_singleton e, ?_⟩
    simp only [List.disjoint_singleton]
    exact hm

lemma fwdEdgesFold_nodup (rxn : Reaction) :
    ∀ (parts : List Participant) (g : List (Node × Node)), g.Nodup →
      (parts.foldl
        (fun g participant =>
          if participant.coefficient < 0 then
            addEdge g (Node.species participant.species, Node.reaction rxn)
          else if 0 < participant.coefficient then
            addEdge g (Node.reaction rxn, Node.species participant.species)
          else g) g).Nodup := by
  intro parts
  induction parts with
  | nil => exact fun g h => h
  | cons p rest ih =>
    intro g h
    rw [List.foldl_cons]
    by_cases hneg : p.coefficient < 0
    · rw [if_pos hneg]
      exact ih _ (addEdge_nodup g _ h)
    · by_cases hpos : 0 < p.coefficient
      · rw [if_neg hneg, if_pos hpos]
        exact ih _ (addEdge_nodup g _ h)
      · rw [if_neg hneg, if_neg hpos]
        exact ih _ h

lemma revEdgesFold_nodup (rxn : Reaction) :
    ∀ (parts : List Participant) (g : List (Node × Node)), g.Nodup →
      (parts.foldl
        (fun g participant =>
          if participant.coefficient < 0 then
            addEdge g (Node.reaction rxn, Node.species participant.species)
          else if 0 < participant.coefficient then
            addEdge g (Node.species participant.species, Node.reaction rxn)
          else g) g).Nodup := by
  intro parts
  induction parts with
  | nil => exact fun g h => h
  | cons p rest ih =>
    intro g h
    rw [List.foldl_cons]
    by_cases hneg : p.coefficient < 0
    · rw [if_pos hneg]
      exact ih _ (addEdge_nodup g _ h)
    · by_cases hpos : 0 < p.coefficient
      · rw [if_neg hneg, if_pos hpos]
        exact ih _ (addEdge_nodup g _ h)
      · rw [if_neg hneg, if_neg hpos]
        exact ih _ h

lemma digraphStep_nodup (g : List (Node × Node)) (rxn : Reaction) (h : g.Nodup) :
    (digraphStep g rxn).Nodup := by
  unfold digraphStep
  by_cases hrev : rxn.reversible
  · rw [if_pos hrev]
    exact revEdgesFold_nodup rxn _ _ (fwdEdgesFold_nodup rxn _ _ h)
  · rw [if_neg hrev]
    exact fwdEdgesFold_nodup rxn _ _ h

lemma get_digraph_nodup (m : Submodel) : (get_digraph m).Nodup := by
  unfold get_digraph
  generalize hg : ([] : List (Node × Node)) = g
  have h : g.Nodup := by
    rw [← hg]
    exact List.nodup_nil
  clear hg
  induction m.reactions generalizing g with
  | nil => exact h
  | cons rxn rest ih =>
    rw [List.foldl_cons]
    exact ih _ (digraphStep_nodup g rxn h)

end DigraphCharacterization

section RingEdges

/-- Reaction `i` of the all-reversible `N`-ring. -/
def ringReactionRev (N i : Nat) : Reaction :=
  ⟨i, true, [⟨i, -1⟩, ⟨i % N + 1, 1⟩], none⟩

/-- The all-reversible `N`-ring submodel over species `1..N`. -/
def ringSubmodelRev (N : Nat) : Submodel :=
  ⟨List.range' 1 N, (List.range' 1 N).map (ringReactionRev N)⟩

/-- The expected edge list of the irreversible `N`-ring. -/
def ringEdges (N : Nat) : List (Node × Node) :=
  (List.range' 1 N).map (fun i => (Node.species i, Node.reaction (ringReaction N i))) ++
  (List.range' 1 N).map (fun i => (Node.reaction (ringReaction N i), Node.species (i % N + 1)))

/-- The expected edge list of the reversible `N`-ring. -/
def ringEdgesRev (N : Nat) : List (Node × Node) :=
  ((List.range' 1 N).map
      (fun i => (Node.species i, Node.reaction (ringReactionRev N i))) ++
    (List.range' 1 N).map
      (fun i => (Node.reaction (ringReactionRev N i), Node.species i))) ++
  ((List.range' 1 N).map
      (fun i => (Node.reaction (ringReactionRev N i), Node.species (i % N + 1))) ++
    (List.range' 1 N).map
      (fun i => (Node.species (i % N + 1), Node.reaction (ringReactionRev N i))))

lemma rxnEdge_ring (N i : Nat) (e : Node × Node) :
    rxnEdge (ringReaction N i) e ↔
      e = (Node.species i, Node.reaction (ringReaction N i)) ∨
      e = (Node.reaction (ringReaction N i), Node.species (i % N + 1)) := by
  unfold rxnEdge ringReaction
  simp +decide [List.exists_mem_cons_iff]

lemma rxnEdge_ringRev (N i : Nat) (e : Node × Node) :
    rxnEdge (ringReactionRev N i) e ↔
      (e = (Node.species i, Node.reaction (ringReactionRev N i)) ∨
       e = (Node.reaction (ringReactionRev N i), Node.species i)) ∨
      (e = (Node.reaction (ringReactionRev N i), Node.species (i % N + 1)) ∨
       e = (Node.species (i % N + 1), Node.reaction (ringReactionRev N i))) := by
  unfold rxnEdge ringReactionRev
  simp +decide [List.exists_mem_cons_iff]

lemma mem_digraph_ring (N : Nat) (e : Node × Node) :
    e ∈ get_digraph (ringSubmodel N) ↔ e ∈ ringEdges N := by
  rw [mem_get_digraph]
  unfold ringEdges
  rw [List.mem_append]
  constructor
  · rintro ⟨rxn, hrxn, hedge⟩
    obtain ⟨i, hi, rfl⟩ := List.mem_map.mp hrxn
    rw [rxnEdge_ring] at hedge
    rcases hedge with rfl | rfl
    · exact Or.inl (List.mem_map.mpr ⟨i, hi, rfl⟩)
    · exact Or.inr (List.mem_map.mpr ⟨i, hi, rfl⟩)
  · rintro (h1 | h2)
    · obtain ⟨i, hi, rfl⟩ := List.mem_map.mp h1
      exact ⟨ringReaction N i, List.mem_map.mpr ⟨i, hi, rfl⟩,
        (rxnEdge_ring N i _).mpr (Or.inl rfl)⟩
    · obtain ⟨i, hi, rfl⟩ := List.mem_map.mp h2
      exact ⟨ringReaction N i, List.mem_map.mpr ⟨i, hi, rfl⟩,
        (rxnEdge_ring N i _).mpr (Or.inr rfl)⟩

lemma mem_digraph_ringRev (N : Nat) (e : Node × Node) :
    e ∈ get_digraph (ringSubmodelRev N) ↔ e ∈ ringEdgesRev N := by
  rw [mem_get_digraph]
  unfold ringEdgesRev
  rw [List.mem_append, List.mem_append, List.mem_append]
  constructor
  · rintro ⟨rxn, hrxn, hedge⟩
    obtain ⟨i, hi, rfl⟩ := List.mem_map.mp hrxn
    rw [rxnEdge_ringRev] at hedge
    rcases hedge with (rfl | rfl) | (rfl | rfl)
    · exact Or.inl (Or.inl (List.mem_map.mpr ⟨i, hi, rfl⟩))
    · exact Or.inl (Or.inr (List.mem_map.mpr ⟨i, hi, rfl⟩))
    · exact Or.inr (Or.inl (List.mem_map.mpr ⟨i, hi, rfl⟩))
    · exact Or.inr (Or.inr (List.mem_map.mpr ⟨i, hi, rfl⟩))
  · rintro ((h | h) | (h | h)) <;> obtain ⟨i, hi, rfl⟩ := List.mem_map.mp h
    · exact ⟨ringReactionRev N i, List.mem_map.mpr ⟨i, hi, rfl⟩,
        (rxnEdge_ringRev N i _).mpr (Or.inl (Or.inl rfl))⟩
    · exact ⟨ringReactionRev N i, List.mem_map.mpr ⟨i, hi, rfl⟩,
        (rxnEdge_ringRev N i _).mpr (Or.inl (Or.inr rfl))⟩
    · exact ⟨ringReactionRev N i, List.mem_map.mpr ⟨i, hi, rfl⟩,
        (rxnEdge_ringRev N i _).mpr (Or.inr (Or.inl rfl))⟩
    · exact ⟨ringReactionRev N i, List.mem_map.mpr ⟨i, hi, rfl⟩,
        (rxnEdge_ringRev N i _).mpr (Or.inr (Or.inr rfl))⟩

lemma ringEdges_nodup (N : Nat) : (ringEdges N).Nodup := by
  have hnr : (List.range' 1 N).Nodup := List.nodup_range' 1 N
  unfold ringEdges
  rw [List.nodup_append]
  refine ⟨?_, ?_, ?_⟩
  · refine List.Nodup.map ?_ hnr
    intro i j h
    have := congrArg Prod.fst h
    simpa using this
  · refine List.Nodup.map ?_ hnr
    intro i j h
    have h2 := congrArg Prod.fst h
    simp only [Node.reaction.injEq] at h2
    exact congrArg Reaction.id h2
  · intro a ha hb
    obtain ⟨i, _, rfl⟩ := List.mem_map.mp ha
    obtain ⟨j, _, he⟩ := List.mem_map.mp hb
    exact absurd (congrArg Prod.fst he) (by simp)

lemma ring_succ_ne {N i : Nat} (hN : 2 ≤ N) (_hi1 : 1 ≤ i) (hi2 : i < 1 + N) :
    i % N + 1 ≠ i := by
  rcases Nat.lt_or_ge i N with h | h
  · rw [Nat.mod_eq_of_lt h]
    omega
  · have hiN : i = N := by omega
    subst hiN
    rw [Nat.mod_self]
    omega

lemma ringEdgesRev_nodup {N : Nat} (hN : 2 ≤ N) : (ringEdgesRev N).Nodup := by
  have hnr : (List.range' 1 N).Nodup := List.nodup_range' 1 N
  have hinj : Function.Injective (ringReactionRev N) := by
    intro i j h
    exact congrArg Reaction.id h
  unfold ringEdgesRev
  rw [List.nodup_append, List.nodup_append, List.nodup_append]
  refine ⟨⟨?_, ?_, ?_⟩, ⟨?_, ?_, ?_⟩, ?_⟩
  · refine List.Nodup.map ?_ hnr
    intro i j h
    have := congrArg Prod.fst h
    simpa using this
  · refine List.Nodup.map ?_ hnr
    intro i j h
    have h2 := congrArg Prod.fst h
    simp only [Node.reaction.injEq] at h2
    exact hinj h2
  · intro a ha hb
    obtain ⟨i, _, rfl⟩ := List.mem_map.mp ha
    obtain ⟨j, _, he⟩ := List.mem_map.mp hb
    exact absurd (congrArg Prod.fst he) (by simp)
  · refine List.Nodup.map ?_ hnr
    intro i j h
    have h2 := congrArg Prod.fst h
    simp only [Node.reaction.injEq] at h2
    exact hinj h2
  · refine List.Nodup.map ?_ hnr
    intro i j h
    have h2 := congrArg Prod.snd h
    simp only [Node.reaction.injEq] at h2
    exact hinj h2
  · intro a ha hb
    obtain ⟨i, _, rfl⟩ := List.mem_map.mp ha
    obtain ⟨j, _, he⟩ := List.mem_map.mp hb
    exact absurd (congrArg Prod.fst he) (by simp)
  · intro a ha hb
    rw [List.mem_append] at ha hb
    rcases ha with h1 | h2 <;> rcases hb with h3 | h4
    · obtain ⟨i, hi, rfl⟩ := List.mem_map.mp h1
      obtain ⟨j, hj, he⟩ := List.mem_map.mp h3
      exact absurd (congrArg Prod.fst he) (by simp)
    · obtain ⟨i, hi, rfl⟩ := List.mem_map.mp h1
      obtain ⟨j, hj, he⟩ := List.mem_map.mp h4
      have h5 := congrArg Prod.snd he
      simp only [Node.reaction.injEq] at h5
      have hij : j = i := hinj h5
      subst hij
      have h6 := congrArg Prod.fst he
      simp only [Node.species.injEq] at h6
      have hr := List.mem_range'_1.mp hj
      exact ring_succ_ne hN hr.1 hr.2 h6
    · obtain ⟨i, hi, rfl⟩ := List.mem_map.mp h2
      obtain ⟨j, hj, he⟩ := List.mem_map.mp h3
      have h5 := congrArg Prod.fst he
      simp only [Node.reaction.injEq] at h5
      have hij : j = i := hinj h5
      subst hij
      have h6 := congrArg Prod.snd he
      simp only [Node.species.injEq] at h6
      have hr := List.mem_range'_1.mp hj
      exact ring_succ_ne hN hr.1 hr.2 h6
    · obtain ⟨i, hi, rfl⟩ := List.mem_map.mp h2
      obtain ⟨j, hj, he⟩ := List.mem_map.mp h4
      exact absurd (congrArg Prod.fst he) (by simp)

lemma ringEdges_length (N : Nat) : (ringEdges N).length = 2 * N := by
  unfold ringEdges
  simp [List.length_append, List.length_map, List.length_range']
  omega

lemma ringEdgesRev_length (N : Nat) : (ringEdgesRev N).length = 4 * N := by
  unfold ringEdgesRev
  simp [List.length_append, List.length_map, List.length_range']
  omega

end RingEdges

section DigraphEdgeMem

lemma mem_digraph_sp_rxn (m : Submodel) (s : Nat) (rxn : Reaction) :
    (Node.species s, Node.reaction rxn) ∈ get_digraph m ↔
      rxn ∈ m.reactions ∧ ∃ p ∈ rxn.participants, p.species = s ∧
        (p.coefficient < 0 ∨ (rxn.reversible = true ∧ 0 < p.coefficient)) := by
  rw [mem_get_digraph]
  constructor
  · rintro ⟨rxn2, h2, p, hp, hcase⟩
    rcases hcase with ⟨hneg, he⟩ | ⟨hpos, he⟩ | ⟨hrev, hneg, he⟩ | ⟨hrev, hpos, he⟩
    · simp only [Prod.mk.injEq, Node.species.injEq, Node.reaction.injEq] at he
      obtain ⟨h6, h7⟩ := he
      subst h7
      exact ⟨h2, p, hp, h6.symm, Or.inl hneg⟩
    · exact absurd (congrArg Prod.fst he) (by simp)
    · exact absurd (congrArg Prod.fst he) (by simp)
    · simp only [Prod.mk.injEq, Node.species.injEq, Node.reaction.injEq] at he
      obtain ⟨h6, h7⟩ := he
      subst h7
      exact ⟨h2, p, hp, h6.symm, Or.inr ⟨hrev, hpos⟩⟩
  · rintro ⟨hr, p, hp, hps, hcase⟩
    refine ⟨rxn, hr, p, hp, ?_⟩
    rcases hcase with hneg | ⟨hrev, hpos⟩
    · exact Or.inl ⟨hneg, by rw [hps]⟩
    · exact Or.inr (Or.inr (Or.inr ⟨hrev, hpos, by rw [hps]⟩))

lemma mem_digraph_rxn_sp (m : Submodel) (s : Nat) (rxn : Reaction) :
    (Node.reaction rxn, Node.species s) ∈ get_digraph m ↔
      rxn ∈ m.reactions ∧ ∃ p ∈ rxn.participants, p.species = s ∧
        (0 < p.coefficient ∨ (rxn.reversible = true ∧ p.coefficient < 0)) := by
  rw [mem_get_digraph]
  constructor
  · rintro ⟨rxn2, h2, p, hp, hcase⟩
    rcases hcase with ⟨hneg, he⟩ | ⟨hpos, he⟩ | ⟨hrev, hneg, he⟩ | ⟨hrev, hpos, he⟩
    · exact absurd (congrArg Prod.fst he) (by simp)
    · simp only [Prod.mk.injEq, Node.species.injEq, Node.reaction.injEq] at he
      obtain ⟨h7, h6⟩ := he
      subst h7
      exact ⟨h2, p, hp, h6.symm, Or.inl hpos⟩
    · simp only [Prod.mk.injEq, Node.species.injEq, Node.reaction.injEq] at he
      obtain ⟨h7, h6⟩ := he
      subst h7
      exact ⟨h2, p, hp, h6.symm, Or.inr ⟨hrev, hneg⟩⟩
    · exact absurd (congrArg Prod.fst he) (by simp)
  · rintro ⟨hr, p, hp, hps, hcase⟩
    refine ⟨rxn, hr, p, hp, ?_⟩
    rcases hcase with hpos | ⟨hrev, hneg⟩
    · exact Or.inr (Or.inl ⟨hpos, by rw [hps]⟩)
    · exact Or.inr (Or.inr (Or.inl ⟨hrev, hneg, by rw [hps]⟩))

lemma digraph_ring_length (N : Nat) :
    (get_digraph (ringSubmodel N)).length = 2 * N := by
  have hperm : (get_digraph (ringSubmodel N)).Perm (ringEdges N) :=
    (List.perm_ext_iff_of_nodup (get_digraph_nodup _) (ringEdges_nodup N)).mpr
      (mem_digraph_ring N)
  rw [hperm.length_eq, ringEdges_length]

lemma digraph_ringRev_length {N : Nat} (hN : 2 ≤ N) :
    (get_digraph (ringSubmodelRev N)).length = 4 * N := by
  have hperm : (get_digraph (ringSubmodelRev N)).Perm (ringEdgesRev N) :=
    (List.perm_ext_iff_of_nodup (get_digraph_nodup _) (ringEdgesRev_nodup hN)).mpr
      (mem_digraph_ringRev N)
  rw [hperm.length_eq, ringEdgesRev_length]

end DigraphEdgeMem

/-- C5 counterexample: for `N = 1` the all-reversible ring's mirror edges
coincide with the original edges (the single reaction's reactant and product
are both species 1), so the graph has 2 edges, not `4·N = 4`. -/
theorem digraph_rev_ring_count_counterexample :
    (get_digraph (ringSubmodelRev 1)).length = 2 ∧
    (get_digraph (ringSubmodelRev 1)).length ≠ 4 * 1 := by
  decide

/-- C5 (amended): an edge species→reaction is present iff the reaction has a
participant with that species which is a reactant (or, for a reversible
reaction, a product); an edge reaction→species is present iff the reaction
has such a participant that is a product (or, for reversible, a reactant);
the edge list has no duplicates (exactly one edge per such pair); the
`N`-reaction irreversible ring has exactly `2·N` edges; the all-reversible
ring has exactly `4·N` edges for `N ≥ 2` (for `N = 1` mirror edges collapse
with the originals, see the counterexample). -/
theorem digraph_edge_characterization (m : Submodel) (N : Nat) :
    (∀ s rxn,
      ((Node.species s, Node.reaction rxn) ∈ get_digraph m ↔
        rxn ∈ m.reactions ∧ ∃ p ∈ rxn.participants, p.species = s ∧
          (p.coefficient < 0 ∨ (rxn.reversible = true ∧ 0 < p.coefficient))) ∧
      ((Node.reaction rxn, Node.species s) ∈ get_digraph m ↔
        rxn ∈ m.reactions ∧ ∃ p ∈ rxn.participants, p.species = s ∧
          (0 < p.coefficient ∨ (rxn.reversible = true ∧ p.coefficient < 0)))) ∧
    (get_digraph m).Nodup ∧
    (get_digraph (ringSubmodel N)).length = 2 * N ∧
    (2 ≤ N → (get_digraph (ringSubmodelRev N)).length = 4 * N) :=
  ⟨fun s rxn => ⟨mem_digraph_sp_rxn m s rxn, mem_digraph_rxn_sp m s rxn⟩,
    get_digraph_nodup m, digraph_ring_length N, fun hN => digraph_ringRev_length hN⟩

/-- Witness for `digraph_edge_characterization`: the reversible 3-ring has
exactly 12 edges. -/
theorem digraph_edge_characterization_witness :
    (get_digraph (ringSubmodelRev 3)).length = 4 * 3 :=
  (digraph_edge_characterization ⟨[], []⟩ 3).2.2.2 (by omega)

/-- A Python value passed where a `wc_lang.Species` is expected: either an
actual species or a value of some other type, carrying `type(x).__name__`. -/
inductive PyVal where
  | species (s : Nat)
  | other (typeName : String)
deriving DecidableEq, Repr

/-- Successors of a node in the digraph, in insertion order (networkx keeps
adjacency in insertion order). -/
def successors (g : List (Node × Node)) (n : Node) : List Node :=
  (g.filter (fun e => decide (e.1 = n))).map (fun e => e.2)

/-- Modelled from the spec: `networkx.all_simple_paths` is an external
collaborator; per the spec it enumerates every simple path (no repeated
nodes) from the source to the target.  Depth-first search; the fuel bounds
the path length and is sufficient because a simple path never repeats a
node. -/
def simplePathsAux (g : List (Node × Node)) (target : Node) :
    Nat → Node → List Node → List (List Node)
  | 0, _, _ => []
  | fuel+1, current, visited =>
    if current = target then [visited ++ [current]]
    else
      ((successors g current).map
        (fun nxt =>
          if nxt ∈ visited ++ [current] then []
          else simplePathsAux g target fuel nxt (visited ++ [current]))).flatten

/-- All simple paths from `src` to `target` in `g`. -/
def all_simple_paths (g : List (Node × Node)) (src target : Node) :
    List (List Node) :=
  simplePathsAux g target (2 * g.length + 2) src []

/-- The per-node test `rxn.flux_bounds and rxn.flux_bounds.max <
min_non_finite_ub` of `unbounded_paths` (fba.py line 262); odd path positions
hold `Reaction` nodes in an alternating path. -/
def node_bound_lt (n : Node) (min_non_finite_ub : ℚ) : Bool :=
  match n with
  | Node.reaction r =>
    match r.flux_bounds with
    | some ub => decide (ub < min_non_finite_ub)
    | none => false
  | Node.species _ => false

/-- The elements at indices 1, 3, 5, ... — `range(1, len(path), 2)` of
fba.py line 260. -/
def oddNodes : List Node → List Node
  | [] => []
  | [_] => []
  | _ :: b :: rest => b :: oddNodes rest

/-- The `bounded` flag loop of `unbounded_paths` (fba.py lines 259-264):
true iff some reaction at an odd position passes `node_bound_lt` (the inner
`break` is `List.any`). -/
def path_is_bounded (path : List Node) (min_non_finite_ub : ℚ) : Bool :=
  (oddNodes path).any (fun n => node_bound_lt n min_non_finite_ub)

/-- The default `min_non_finite_ub=1000.0` of `unbounded_paths`. -/
def default_min_non_finite_ub : ℚ := 1000

/-- The `for of_specie in obj_fn_species` loop of `unbounded_paths` (fba.py
lines 253-266): type-check each target when reached, then enumerate and
filter its simple paths.  The extra `Nat` counts every enumerated path, so
that "fails before any path enumeration" is expressible. -/
def upLoop (g : List (Node × Node)) (src : Node) (min_non_finite_ub : ℚ) :
    List PyVal → List (List Node) → Nat → Except String (List (List Node)) × Nat
  | [], acc, count => (Except.ok acc, count)
  | of_specie :: rest, acc, count =>
    match of_specie with
    | PyVal.other tn =>
      (Except.error
        ("elements of obj_fn_species should be wc_lang.Species instances, but one is a "
          ++ tn), count)
    | PyVal.species ts =>
      upLoop g src min_non_finite_ub rest
        (acc ++ (all_simple_paths g src (Node.species ts)).filter
          (fun p => !(path_is_bounded p min_non_finite_ub)))
        (count + (all_simple_paths g src (Node.species ts)).length)

/-- `FbaModelAnalysis.unbounded_paths` (fba.py lines 221-266): check the
source type, then walk the target list.  The `Nat` component counts the paths
enumerated before the function returned or raised. -/
def unbounded_paths (rxn_network : List (Node × Node)) (ex_species : PyVal)
    (obj_fn_species : List PyVal) (min_non_finite_ub : ℚ) :
    Except String (List (List Node)) × Nat :=
  match ex_species with
  | PyVal.other tn =>
    (Except.error
      ("ex_species should be a wc_lang.Species instance, but it is a " ++ tn), 0)
  | PyVal.species s =>
    upLoop rxn_network (Node.species s) min_non_finite_ub obj_fn_species [] 0

section PathLemmas

lemma node_bound_lt_iff (n : Node) (min_ub : ℚ) :
    node_bound_lt n min_ub = true ↔
      ∃ r ub, n = Node.reaction r ∧ r.flux_bounds = some ub ∧ ub < min_ub := by
  cases n with
  | species s => simp [node_bound_lt]
  | reaction r =>
    cases hf : r.flux_bounds with
    | none => simp [node_bound_lt, hf]
    | some ub => simp [node_bound_lt, hf]

lemma path_is_bounded_iff (path : List Node) (min_ub : ℚ) :
    path_is_bounded path min_ub = true ↔
      ∃ n ∈ oddNodes path, ∃ r ub, n = Node.reaction r ∧
        r.flux_bounds = some ub ∧ ub < min_ub := by
  unfold path_is_bounded
  rw [List.any_eq_true]
  constructor
  · rintro ⟨n, hn, hb⟩
    exact ⟨n, hn, (node_bound_lt_iff n min_ub).mp hb⟩
  · rintro ⟨n, hn, hb⟩
    exact ⟨n, hn, (node_bound_lt_iff n min_ub).mpr hb⟩

lemma upLoop_ok_mem (g : List (Node × Node)) (src : Node) (min_ub : ℚ) :
    ∀ (targets : List PyVal) (acc : List (List Node)) (count : Nat)
      (l : List (List Node)) (c : Nat),
      upLoop g src min_ub targets acc count = (Except.ok l, c) →
      ∀ path, path ∈ l ↔ path ∈ acc ∨ ∃ t, PyVal.species t ∈ targets ∧
        path ∈ all_simple_paths g src (Node.species t) ∧
        path_is_bounded path min_ub = false := by
  intro targets
  induction targets with
  | nil =>
    intro acc count l c h path
    simp only [upLoop, Prod.mk.injEq, Except.ok.injEq] at h
    rw [← h.1]
    simp
  | cons t rest ih =>
    intro acc count l c h path
    cases t with
    | other tn =>
      simp only [upLoop] at h
      exact absurd (congrArg Prod.fst h) (by simp)
    | species ts =>
      simp only [upLoop] at h
      rw [ih _ _ _ _ h path, List.mem_append, List.mem_filter]
      constructor
      · rintro ((hacc | ⟨hp, hb⟩) | ⟨t2, ht2, hmem, hb⟩)
        · exact Or.inl hacc
        · refine Or.inr ⟨ts, List.mem_cons_self _ _, hp, ?_⟩
          simpa using hb
        · exact Or.inr ⟨t2, List.mem_cons_of_mem _ ht2, hmem, hb⟩
      · rintro (hacc | ⟨t2, ht2, hmem, hb⟩)
        · exact Or.inl (Or.inl hacc)
        · rcases List.mem_cons.mp ht2 with heq | hrest
          · injection heq with h3
            subst h3
            exact Or.inl (Or.inr ⟨hmem, by simpa using hb⟩)
          · exact Or.inr ⟨t2, hrest, hmem, hb⟩

lemma upLoop_ok_of_species (g : List (Node × Node)) (src : Node) (min_ub : ℚ) :
    ∀ (targets : List PyVal) (acc : List (List Node)) (count : Nat),
      (∀ v ∈ targets, ∃ ts, v = PyVal.species ts) →
      ∃ l c, upLoop g src min_ub targets acc count = (Except.ok l, c) := by
  intro targets
  induction targets with
  | nil =>
    intro acc count _
    exact ⟨acc, count, rfl⟩
  | cons t rest ih =>
    intro acc count hall
    obtain ⟨ts, rfl⟩ := hall t (List.mem_cons_self _ _)
    simp only [upLoop]
    exact ih _ _ (fun v hv => hall v (List.mem_cons_of_mem _ hv))

lemma upLoop_error_at (g : List (Node × Node)) (src : Node) (min_ub : ℚ) :
    ∀ (pre : List PyVal) (tn2 : String) (post : List PyVal)
      (acc : List (List Node)) (count : Nat),
      (∀ v ∈ pre, ∃ ts, v = PyVal.species ts) →
      (upLoop g src min_ub (pre ++ PyVal.other tn2 :: post) acc count).1 =
        Except.error
          ("elements of obj_fn_species should be wc_lang.Species instances, but one is a "
            ++ tn2) := by
  intro pre
  induction pre with
  | nil =>
    intro tn2 post acc count _
    simp [upLoop]
  | cons t rest ih =>
    intro tn2 post acc count hall
    obtain ⟨ts, rfl⟩ := hall t (List.mem_cons_self _ _)
    simp only [List.cons_append, upLoop]
    exact ih _ _ _ _ (fun v hv => hall v (List.mem_cons_of_mem _ hv))

end PathLemmas

/-- C6: when `unbounded_paths` succeeds, the returned list contains exactly
the enumerated simple paths that are not bounded; a path is bounded iff some
reaction node at an odd position (1, 3, 5, ...) has a defined flux upper
bound strictly below `min_non_finite_ub`; and the classification depends only
on the odd-position nodes, never on the species nodes at even positions. -/
theorem unbounded_paths_classification (g : List (Node × Node)) (s : Nat)
    (targets : List PyVal) (min_ub : ℚ) (l : List (List Node)) (c : Nat)
    (h : unbounded_paths g (PyVal.species s) targets min_ub = (Except.ok l, c)) :
    (∀ path, path ∈ l ↔ ∃ t, PyVal.species t ∈ targets ∧
      path ∈ all_simple_paths g (Node.species s) (Node.species t) ∧
      path_is_bounded path min_ub = false) ∧
    (∀ path, path_is_bounded path min_ub = true ↔
      ∃ n ∈ oddNodes path, ∃ r ub, n = Node.reaction r ∧
        r.flux_bounds = some ub ∧ ub < min_ub) ∧
    (∀ path path2, oddNodes path = oddNodes path2 →
      path_is_bounded path min_ub = path_is_bounded path2 min_ub) := by
  refine ⟨?_, fun path => path_is_bounded_iff path min_ub, ?_⟩
  · intro path
    have h2 := upLoop_ok_mem g (Node.species s) min_ub targets [] 0 l c h path
    rw [h2]
    simp
  · intro path path2 hodd
    unfold path_is_bounded
    rw [hodd]

/-- The concrete one-reaction submodel 1 → 2 used by the path witnesses. -/
def examplePathRxn : Reaction := ⟨7, false, [⟨1, -1⟩, ⟨2, 1⟩], none⟩

/-- Its digraph: species 1 → reaction 7 → species 2. -/
def exampleGraph : List (Node × Node) :=
  get_digraph ⟨[1, 2], [examplePathRxn]⟩

/-- The single simple path of `exampleGraph` from species 1 to species 2. -/
def examplePath : List Node :=
  [Node.species 1, Node.reaction examplePathRxn, Node.species 2]

/-- Witness for `unbounded_paths_classification` on `exampleGraph`: the one
enumerated path has no flux bound, so it is returned. -/
theorem unbounded_paths_classification_witness :
    examplePath ∈ [examplePath] ↔ ∃ t, PyVal.species t ∈ [PyVal.species 2] ∧
      examplePath ∈ all_simple_paths exampleGraph (Node.species 1) (Node.species t) ∧
      path_is_bounded examplePath 1000 = false :=
  (unbounded_paths_classification exampleGraph 1 [PyVal.species 2] 1000
    [examplePath] 1 rfl).1 examplePath

/-- C7 counterexample: on `exampleGraph` with target list
`[species 2, other "str"]`, the call raises the invalid-argument error naming
`str`, but only after enumerating the one simple path to species 2 — the
failure does not occur before any path enumeration, contrary to the claim. -/
theorem unbounded_paths_error_counterexample :
    unbounded_paths exampleGraph (PyVal.species 1)
        [PyVal.species 2, PyVal.other "str"] 1000 =
      (Except.error
        ("elements of obj_fn_species should be wc_lang.Species instances, but one is a "
          ++ "str"), 1) ∧
    (1 : Nat) ≠ 0 :=
  ⟨rfl, by omega⟩

/-- C7 (amended): `unbounded_paths` raises a ValueError naming the offending
value's actual type whenever the source is not a Species — in that case
immediately, with no path enumerated — or when a non-Species element of the
target list is reached, in which case the paths of the earlier (valid)
targets have already been enumerated; when the source and every target are
Species, no error is raised. -/
theorem unbounded_paths_type_error (g : List (Node × Node)) (tn : String)
    (targets : List PyVal) (min_ub : ℚ) (s : Nat)
    (pre post : List PyVal) (tn2 : String)
    (hall : ∀ v ∈ targets, ∃ ts, v = PyVal.species ts)
    (hpre : ∀ v ∈ pre, ∃ ts, v = PyVal.species ts) :
    unbounded_paths g (PyVal.other tn) targets min_ub =
      (Except.error
        ("ex_species should be a wc_lang.Species instance, but it is a " ++ tn), 0) ∧
    (∃ l c, unbounded_paths g (PyVal.species s) targets min_ub = (Except.ok l, c)) ∧
    (unbounded_paths g (PyVal.species s) (pre ++ PyVal.other tn2 :: post) min_ub).1 =
      Except.error
        ("elements of obj_fn_species should be wc_lang.Species instances, but one is a "
          ++ tn2) := by
  refine ⟨rfl, ?_, ?_⟩
  · exact upLoop_ok_of_species g (Node.species s) min_ub targets [] 0 hall
  · exact upLoop_error_at g (Node.species s) min_ub pre tn2 post [] 0 hpre

/-- Witness for `unbounded_paths_type_error` at concrete arguments. -/
theorem unbounded_paths_type_error_witness :
    unbounded_paths exampleGraph (PyVal.other "str") [PyVal.species 2] 1000 =
      (Except.error
        ("ex_species should be a wc_lang.Species instance, but it is a " ++ "str"), 0) ∧
    (∃ l c, unbounded_paths exampleGraph (PyVal.species 1) [PyVal.species 2] 1000 =
      (Except.ok l, c)) ∧
    (unbounded_paths exampleGraph (PyVal.species 1)
        ([PyVal.species 2] ++ PyVal.other "int" :: []) 1000).1 =
      Except.error
        ("elements of obj_fn_species should be wc_lang.Species instances, but one is a "
          ++ "int") :=
  unbounded_paths_type_error exampleGraph "str" [PyVal.species 2] 1000 1
    [PyVal.species 2] [] "int"
    (by rintro v hv; rcases List.mem_singleton.mp hv with rfl; exact ⟨2, rfl⟩)
    (by rintro v hv; rcases List.mem_singleton.mp hv with rfl; exact ⟨2, rfl⟩)

end WcAnalysis
